import Mathlib

set_option linter.unusedVariables false

/-!
A verification development for the `enc_map` struct-to-map marshaling engine
(package `maps`, with the tag parser in `tags.go`, field resolution in
`common.go`, and the value encoder in `encode.go`).

The Go code is shallowly embedded: Go struct types become the inductive
`GoType`, runtime values become `GoValue`, and the reflective algorithms
(`parseTag`, `typeFields`, `structEncoder.encode`, `marshal`, `marshalSlice`)
become executable Lean functions over those trees.  Panics that the package
converts to errors via `recover` are modelled with `Except String`.
-/

namespace EncMap

/-- ASCII case folding, modelling `strings.ToLower` on the ASCII range
(struct-tag option names are ASCII in practice). -/
def lowerChar (c : Char) : Char :=
  if 'A' ≤ c ∧ c ≤ 'Z' then Char.ofNat (c.toNat + 32) else c

/-- `strings.ToLower` restricted to ASCII case folding. -/
def toLower (s : String) : String :=
  ⟨s.data.map lowerChar⟩

/-- Helper for `splitChar`, walking the character list. -/
def splitCharGo (sep : Char) : List Char → List String
  | [] => [""]
  | c :: rest =>
      let r := splitCharGo sep rest
      if c = sep then "" :: r
      else
        match r with
        | [] => [⟨[c]⟩]
        | hd :: tl => ⟨c :: hd.data⟩ :: tl

/-- `strings.Split(s, sep)` for a one-character separator.  Splitting the
empty string yields `[""]`, as in Go. -/
def splitChar (sep : Char) (s : String) : List String :=
  splitCharGo sep s.data

mutual
/-- A Go type, as far as the marshaling engine can observe one:
scalar kinds, pointers, plain struct types, and types whose method set
includes `MarshalMapValue` (either a non-struct or a struct). Named types
carry their `reflect.Type.Name()`. -/
inductive GoType where
  | tint
  | tstring
  | tbool
  | tptr (elem : GoType)
  | tstruct (name : String) (fields : List GoField)
  | tmarshaler (name : String)
  | tmarshalerStruct (name : String) (fields : List GoField)


/-- One declared struct field: its Go name, the raw tag string returned by
`sf.Tag.Get(cfg.TagName)`, whether it is embedded (`sf.Anonymous`), whether it
is exported (`sf.PkgPath == ""`), and its declared type. -/
inductive GoField where
  | mk (name : String) (tag : String) (anonymous : Bool) (exported : Bool)
      (typ : GoType)

end

mutual
/-- A computable structural size for `GoType`, used only to provision the
fuel of bounded loops (it dominates the embedding depth of the type). -/
def GoType.size : GoType → Nat
  | .tint => 1
  | .tstring => 1
  | .tbool => 1
  | .tptr e => e.size + 1
  | .tstruct _ fs => GoField.sizeList fs + 1
  | .tmarshaler _ => 1
  | .tmarshalerStruct _ fs => GoField.sizeList fs + 1

def GoField.size : GoField → Nat
  | .mk _ _ _ _ t => t.size + 1

def GoField.sizeList : List GoField → Nat
  | [] => 0
  | f :: fs => f.size + GoField.sizeList fs + 1
end

def GoField.name : GoField → String
  | .mk n _ _ _ _ => n

def GoField.tag : GoField → String
  | .mk _ t _ _ _ => t

def GoField.anonymous : GoField → Bool
  | .mk _ _ a _ _ => a

def GoField.exported : GoField → Bool
  | .mk _ _ _ e _ => e

def GoField.typ : GoField → GoType
  | .mk _ _ _ _ t => t

/-- A Go runtime value, as the encoder can observe one.  A value of a
`Marshaler` type is `vmarshaler merr mval vals`: calling `MarshalMapValue`
on it returns the error `merr` when present and the representation `mval`
otherwise; `vals` are the underlying struct's own field values (present so
theorems can state that they are never walked). `vnull` is the untyped nil
interface. -/
inductive GoValue where
  | vint (n : Int)
  | vstr (s : String)
  | vbool (b : Bool)
  | vnull
  | vptr (p : Option GoValue)
  | vstruct (vals : List GoValue)
  | vmap (entries : List (String × GoValue))
  | vmarshaler (merr : Option String) (mval : GoValue) (vals : List GoValue)


/-! ## tags.go -/

/-- `tagOptions`, a `map[string]string`, modelled as an association list with
Go-map insertion semantics (an insert overwrites an existing key). -/
def TagOpts := List (String × String)

/-- Go map assignment `m[k] = v`. -/
def mapAssignStr (m : List (String × String)) (k v : String) :
    List (String × String) :=
  match m with
  | [] => [(k, v)]
  | (k', v') :: rest =>
      if k' = k then (k, v) :: rest else (k', v') :: mapAssignStr rest k v

/-- Go map read `m[k]` with its `ok` flag. -/
def mapReadStr (m : List (String × String)) (k : String) : Option String :=
  match m with
  | [] => none
  | (k', v') :: rest => if k' = k then some v' else mapReadStr rest k

/-- `tagOptions.setOption`: stores `value` under the lowercased `option`. -/
def setOption (opts : TagOpts) (option value : String) : TagOpts :=
  mapAssignStr opts (toLower option) value

/-- `tagOptions.getOption`: looks up the lowercased `option`. -/
def getOption (opts : TagOpts) (option : String) : Option String :=
  mapReadStr opts (toLower option)

/-- `tagOptions.Contains` (spelled `Contain` in an older revision of the
file; both have this behaviour). -/
def optsContains (opts : TagOpts) (option : String) : Bool :=
  (getOption opts option).isSome

/-- `tagOptions.ValueOf`. -/
def optsValueOf (opts : TagOpts) (option : String) : String :=
  match getOption opts option with
  | none => ""
  | some val => if val = "" then option else val

/-- The loop body of `parseTag` for one option segment: `strings.Index`
finding no `=` yields a flag (`setOption(str, "")`); otherwise the source
calls `setOption(str[:idx], str[:idx])` with the text before the first
`=` as both arguments, i.e. the text after the `=` is discarded. -/
def addOption (opts : TagOpts) (str : String) : TagOpts :=
  match splitChar '=' str with
  | [] => setOption opts str ""
  | [_] => setOption opts str ""
  | before :: _ :: _ => setOption opts before before

/-- `parseTag`: split on commas; the first segment is the name (empty means
no override name); each later segment becomes an option via `addOption`. -/
def parseTag (tag : String) : String × TagOpts :=
  let strs := splitChar ',' tag
  let name := strs.headD ""
  let opts := strs.tail.foldl addOption []
  (name, opts)

/-! ## common.go: Config and the field type -/

/-- `Config` (the `TagName` member is not modelled separately: `GoField.tag`
already holds the string `sf.Tag.Get(cfg.TagName)` returns). -/
structure Config where
  omitZero : Bool
  omitNil : Bool

/-- `defaultConfig`: `OmitZero: false, OmitNil: false`. -/
def defaultConfig : Config := ⟨false, false⟩

/-- `field` from common.go (each resolved field descriptor).  `nameBytes`
and `equalFold` are byte-level redundancies of `name` and are not modelled.
The struct carries both the resolved boolean flags computed by `typeFields`
and the parsed tag options that `structEncoder` consults. -/
structure Field where
  name : String
  tagged : Bool
  index : List Nat
  typ : GoType
  options : TagOpts
  omitZero : Bool
  omitNil : Bool
  asValue : Bool

/-- The queue entries of `typeFields` are `field` values with only `name`,
`index` and `typ` set; this is the zero `field`. -/
def emptyField (t : GoType) : Field :=
  { name := "", tagged := false, index := [], typ := t, options := [],
    omitZero := false, omitNil := false, asValue := false }

/-- `reflect.Type.Name()`: named types report their name, unnamed composite
types (pointers) report the empty string. -/
def typeName : GoType → String
  | .tint => "int"
  | .tstring => "string"
  | .tbool => "bool"
  | .tptr _ => ""
  | .tstruct n _ => n
  | .tmarshaler n => n
  | .tmarshalerStruct n _ => n

/-- `t.Kind() == reflect.Struct`. -/
def structKindB : GoType → Bool
  | .tstruct _ _ => true
  | .tmarshalerStruct _ _ => true
  | _ => false

/-- `t.Kind() == reflect.Ptr`. -/
def ptrKindB : GoType → Bool
  | .tptr _ => true
  | _ => false

/-- `t.Elem()` for a pointer type (identity otherwise; never reached on
non-pointers in the translated code paths). -/
def elemType : GoType → GoType
  | .tptr e => e
  | t => t

/-- The declared fields of a struct type (empty for non-structs). -/
def getFields : GoType → List GoField
  | .tstruct _ fs => fs
  | .tmarshalerStruct _ fs => fs
  | _ => []

/-- `t.Implements(marshalerType)`.  A pointer's method set includes the
value-receiver methods of its pointee. -/
def implementsMarshaler : GoType → Bool
  | .tmarshaler _ => true
  | .tmarshalerStruct _ _ => true
  | .tptr e => implementsMarshaler e
  | _ => false

/-! ## common.go: typeFields, the breadth-first field resolver -/

/-- Go map read for the per-level counts (`map[reflect.Type]int`, keyed here
by type name; absent keys read as zero). -/
def countGet (m : List (String × Nat)) (k : String) : Nat :=
  match m with
  | [] => 0
  | (k', v) :: rest => if k' = k then v else countGet rest k

/-- Go map assignment for the per-level counts. -/
def countSet (m : List (String × Nat)) (k : String) (v : Nat) :
    List (String × Nat) :=
  match m with
  | [] => [(k, v)]
  | (k', v') :: rest =>
      if k' = k then (k, v) :: rest else (k', v') :: countSet rest k v

/-- The state accumulated while scanning one breadth level: fields recorded
so far, the queue of embedded structs for the next level, and `nextCount`. -/
structure ScanAcc where
  leaves : List Field
  next : List Field
  nextCount : List (String × Nat)

/-- The `omitZero` resolution of `typeFields`: tag options override the
ambient configuration default. -/
def resolvedOmitZero (cfg : Config) (opts : TagOpts) : Bool :=
  if optsContains opts "omitZero" then true
  else if optsContains opts "noOmitZero" then false
  else cfg.omitZero

/-- The `omitNil` resolution of `typeFields`. -/
def resolvedOmitNil (cfg : Config) (opts : TagOpts) : Bool :=
  if optsContains opts "omitNil" then true
  else if optsContains opts "noOmitNil" then false
  else cfg.omitNil

/-- The body of the `for i := 0; i < f.typ.NumField(); i++` loop of
`typeFields`, for one struct field `sf` at offset `i` of the queue entry
`f` (whose own per-level multiplicity is `cnt = count[f.typ]`). -/
def scanField (cfg : Config) (f : Field) (cnt : Nat) (acc : ScanAcc)
    (i : Nat) (sf : GoField) : ScanAcc :=
  let isUnexported := !sf.exported
  let isEmbedded := sf.anonymous
  -- ignore embedded fields of unexported non-structs, and all other
  -- unexported fields
  if isEmbedded && isUnexported && !structKindB (elemType sf.typ) then acc
  else if !isEmbedded && isUnexported then acc
  else
    let tag := sf.tag
    let tagged := tag ≠ ""
    let parsed := parseTag tag
    if parsed.1 = "-" then acc
    else
      let name := if parsed.1 = "" then sf.name else parsed.1
      let opts := parsed.2
      let omitZero := resolvedOmitZero cfg opts
      let omitNil := resolvedOmitNil cfg opts
      let asValue := optsContains opts "value"
      let index := f.index ++ [i]
      -- if we're looking at an unnamed pointer type, follow the pointer
      let sft := if typeName sf.typ = "" && ptrKindB sf.typ
                 then elemType sf.typ else sf.typ
      if tagged || !isEmbedded || !structKindB sft then
        -- record the found field (twice when there were multiple
        -- instances of f.typ at this level, for the annihilation code)
        let fld : Field :=
          { name := name, tagged := tagged, index := index, typ := sft,
            options := opts, omitZero := omitZero, omitNil := omitNil,
            asValue := asValue }
        if cnt > 1 then { acc with leaves := acc.leaves ++ [fld, fld] }
        else { acc with leaves := acc.leaves ++ [fld] }
      else
        -- record a new anonymous struct for the next round
        let c := countGet acc.nextCount (typeName sft) + 1
        let nextCount := countSet acc.nextCount (typeName sft) c
        if c = 1 then
          { acc with nextCount := nextCount,
                     next := acc.next ++
                       [{ emptyField sft with name := typeName sft,
                                              index := index }] }
        else { acc with nextCount := nextCount }

/-- Scan all declared fields of the queue entry `f`. -/
def scanStruct (cfg : Config) (f : Field) (cnt : Nat) (acc : ScanAcc) :
    ScanAcc :=
  ((getFields f.typ).enum.foldl
    (fun acc p => scanField cfg f cnt acc p.1 p.2) acc)

/-- Processing of one queue entry within a level: skip it when its type
was already visited, otherwise mark it visited and scan its fields,
threading the accumulated next-level queue and counts. -/
def levelStep (cfg : Config) (count : List (String × Nat))
    (st : List Field × List Field × List (String × Nat) × List String)
    (f : Field) :
    List Field × List Field × List (String × Nat) × List String :=
  let (fields, next, nextCount, visited) := st
  if typeName f.typ ∈ visited then (fields, next, nextCount, visited)
  else
    let acc := scanStruct cfg f (countGet count (typeName f.typ))
      ⟨[], next, nextCount⟩
    (fields ++ acc.leaves, acc.next, acc.nextCount,
      typeName f.typ :: visited)

/-- One iteration of the outer `for len(next) > 0` loop: process every
queue entry of the current level, starting from an empty next-level queue
and a fresh (empty) next-level count map, as the loop header's swap does. -/
def processLevel (cfg : Config) (current : List Field)
    (count : List (String × Nat)) (visited : List String)
    (fields : List Field) :
    List Field × List Field × List (String × Nat) × List String :=
  current.foldl (levelStep cfg count) (fields, [], [], visited)

/-- The outer loop of `typeFields`, fuelled: the fuel strictly bounds the
number of breadth levels, which is at most the embedding depth of the root
type (itself below `sizeOf` of the root), so the fuel never runs out for
the initial value chosen in `collectFields`. -/
def typeFieldsLoop (cfg : Config) :
    Nat → List Field → List (String × Nat) → List String → List Field →
    List Field
  | 0, _, _, _, fields => fields
  | fuel + 1, next, nextCount, visited, fields =>
      match next with
      | [] => fields
      | _ =>
          let (fields', next', nextCount', visited') :=
            processLevel cfg next nextCount visited fields
          typeFieldsLoop cfg fuel next' nextCount' visited' fields'

/-- The breadth-first collection phase of `typeFields`: all candidate
fields, in discovery order, before sorting and annihilation. -/
def collectFields (cfg : Config) (t : GoType) : List Field :=
  typeFieldsLoop cfg (t.size + 1) [emptyField t] [] [] []

/-! ## common.go: sorting and the annihilation of hidden fields -/

/-- The index-sequence comparison loop shared by the two sort comparators
(`byIndex.Less` and the tail of the `sort.Slice` closure). -/
def indexLess : List Nat → List Nat → Bool
  | [], r => decide (0 < r.length)
  | _ :: _, [] => false
  | a :: l, b :: r => if a ≠ b then decide (a < b) else indexLess l r

/-- Lexicographic comparison of character lists, modelling Go's `<` on
strings (which compares byte-wise; the two agree on ASCII names). -/
def charListLess : List Char → List Char → Bool
  | [], [] => false
  | [], _ :: _ => true
  | _ :: _, [] => false
  | a :: l, b :: r => if a = b then charListLess l r else decide (a < b)

/-- Go's `<` on strings. -/
def strLess (a b : String) : Bool :=
  charListLess a.data b.data

/-- The comparator of the `sort.Slice` call in `typeFields`: by name, then
by index-sequence length, then tagged-first, then by index sequence. -/
def fieldLess (l r : Field) : Bool :=
  if l.name ≠ r.name then strLess l.name r.name
  else if l.index.length ≠ r.index.length then
    decide (l.index.length < r.index.length)
  else if l.tagged ≠ r.tagged then l.tagged
  else indexLess l.index r.index

/-- Stable insertion step for `sortFields` (the element is placed before
the first entry it is not greater-or-equal to). -/
def sortInsert (less : Field → Field → Bool) (a : Field) :
    List Field → List Field
  | [] => [a]
  | b :: l => if less b a then b :: sortInsert less a l else a :: b :: l

/-- A stable sort with the given strict comparator; Go's `sort.Slice` is
unstable, but every pair of `typeFields` candidates that compares equal in
both directions is an exact duplicate, so stability is immaterial there. -/
def sortFields (less : Field → Field → Bool) : List Field → List Field
  | [] => []
  | a :: l => sortInsert less a (sortFields less l)

/-- Group maximal runs of adjacent fields that share a name (the
`for count = 1; ...` run detection of the annihilation loop). -/
def groupRuns : List Field → List (List Field)
  | [] => []
  | f :: rest =>
      match groupRuns rest with
      | [] => [[f]]
      | [] :: gs => [f] :: [] :: gs
      | (h :: g) :: gs =>
          if f.name = h.name then (f :: h :: g) :: gs
          else [f] :: (h :: g) :: gs

/-- The ambiguity panic message of `typeFields`. -/
def ambiguousMsg (fname tname : String) : String :=
  "encmap: ambiguous tagged field name \'" ++ fname ++ "\' in " ++ tname

/-- Resolution of one contention group (the body of the annihilation loop
for one run of same-named candidates): truncate to the entries whose index
sequence is no longer than the first entry's, then let a unique tagged
entry win; two tagged entries, or two or more untagged entries with no
tagged one, are ambiguous and panic. -/
def resolveGroup (tname : String) (grp : List Field) :
    Except String Field :=
  match grp with
  | [] => .error "encmap: internal: empty contention group"
  | g0 :: _ =>
      let contended :=
        grp.takeWhile (fun f => decide (f.index.length ≤ g0.index.length))
      match contended.filter (·.tagged) with
      | [] =>
          if contended.length > 1 then
            .error (ambiguousMsg g0.name tname)
          else .ok g0
      | [w] => .ok w
      | _ :: w2 :: _ => .error (ambiguousMsg w2.name tname)

/-- Resolve every contention group in order, stopping at the first
ambiguity panic. -/
def resolveAll (tname : String) : List (List Field) →
    Except String (List Field)
  | [] => .ok []
  | g :: gs =>
      match resolveGroup tname g with
      | .error e => .error e
      | .ok w =>
          match resolveAll tname gs with
          | .error e => .error e
          | .ok ws => .ok (w :: ws)

/-- The annihilation pass: resolve every run of same-named candidates.  The
source signals ambiguity with a panic that `marshal` recovers into an
error; this is modelled with `Except`. -/
def annihilate (tname : String) (fields : List Field) :
    Except String (List Field) :=
  resolveAll tname (groupRuns fields)

/-- `typeFields`: collect candidates breadth-first, sort them by
name/depth/taggedness/index, annihilate hidden and ambiguous fields, and
re-sort the survivors by index sequence (`sort.Sort(byIndex(fields))`).
`cachedTypeFields` only memoizes this computation and is semantically the
identity on it, so it is not modelled separately. -/
def typeFields (cfg : Config) (t : GoType) : Except String (List Field) :=
  let fields := sortFields fieldLess (collectFields cfg t)
  match annihilate (typeName t) fields with
  | .error e => .error e
  | .ok out => .ok (sortFields (fun l r => indexLess l.index r.index) out)

/-! ## pyrrho/encoding: IsValueZero and IsValueNil

Only the kinds representable by `GoValue` are modelled; the `IsZeroer` and
`IsNiler` escape hatches belong to the out-of-scope wrapper types. -/

mutual
/-- `encoding.IsValueZero`: scalar zero, nil pointer, empty string/map, or
a struct all of whose fields are zero. -/
def isValueZero : GoValue → Bool
  | .vint n => n == 0
  | .vstr s => s == ""
  | .vbool b => !b
  | .vnull => false
  | .vptr p => p.isNone
  | .vstruct vs => allValuesZero vs
  | .vmap m => m.isEmpty
  | .vmarshaler _ _ vs => allValuesZero vs

def allValuesZero : List GoValue → Bool
  | [] => true
  | v :: vs => isValueZero v && allValuesZero vs
end

/-- `encoding.IsValueNil`: of the modelled kinds only pointers can be nil. -/
def isValueNil : GoValue → Bool
  | .vptr p => p.isNone
  | _ => false

/-! ## encode.go: the value encoder -/

/-- The output mapping type `map[string]interface{}`, as an association
list with Go-map assignment semantics. -/
def MapOut := List (String × GoValue)

/-- Go map assignment `ret[k] = v` (overwrites an existing key). -/
def mapSet (m : MapOut) (k : String) (v : GoValue) : MapOut :=
  match m with
  | [] => [(k, v)]
  | (k', v') :: rest =>
      if k' = k then (k, v) :: rest else (k', v') :: mapSet rest k v

/-- Go map read `m[k]`. -/
def mapGet (m : MapOut) (k : String) : Option GoValue :=
  match m with
  | [] => none
  | (k', v') :: rest => if k' = k then some v' else mapGet rest k

/-- The field values of a struct value (`reflect.Value.Field`). -/
def structVals : GoValue → List GoValue
  | .vstruct vs => vs
  | .vmarshaler _ _ vs => vs
  | _ => []

/-- `fieldByIndex`: navigate an index path through a value, dereferencing
intermediate pointers; a nil pointer on the way yields `none` (the invalid
`reflect.Value` that the struct encoder skips). -/
def fieldByIndex : GoValue → List Nat → Option GoValue
  | v, [] => some v
  | .vptr none, _ :: _ => none
  | .vptr (some w), i :: rest =>
      match (structVals w)[i]? with
      | some fv => fieldByIndex fv rest
      | none => none
  | w, i :: rest =>
      match (structVals w)[i]? with
      | some fv => fieldByIndex fv rest
      | none => none

/-- `typeByIndex`: navigate an index path through a type, dereferencing
pointer types on the way. -/
def typeByIndex : GoType → List Nat → Option GoType
  | t, [] => some t
  | t, i :: rest =>
      let t' := if ptrKindB t then elemType t else t
      match (getFields t')[i]? with
      | some sf => typeByIndex sf.typ rest
      | none => none

/-- Invoking `MarshalMapValue` on a value; a non-`Marshaler` value is the
source's defensive panic. -/
def callMarshalMapValue : GoValue → Except String GoValue
  | .vmarshaler (some e) _ _ => .error e
  | .vmarshaler none mval _ => .ok mval
  | _ => .error "How did you get here w/o an enc_map.Marshaler?"

/-- `encodeMarshaller`: a nil pointer contributes Go's `nil` (an explicit
null); otherwise the value's `MarshalMapValue` result is used verbatim, and
an error from it is panicked (aborting the walk). -/
def encodeMarshaller (src : GoValue) : Except String GoValue :=
  match src with
  | .vptr none => .ok .vnull
  | .vptr (some w) => callMarshalMapValue w
  | w => callMarshalMapValue w

/-- The per-field encoder selection of `newStructEncoder`: the `value`
option forces `encodeInterface` (the identity), everything else dispatches
on `typeByIndex(t, f.index)` (whose failure is a reflect panic in Go,
unreachable for descriptors produced by `typeFields`). -/
def fieldEnc (enc : GoType → GoValue → Except String GoValue) (t : GoType)
    (f : Field) (fv : GoValue) : Except String GoValue :=
  if optsContains f.options "value" then .ok fv
  else
    match typeByIndex t f.index with
    | some u => enc u fv
    | none => .error "reflect: Field index out of range"

/-- The omission test of `structEncoder.encode`:
`f.options.Contains("omitZero") && encoding.IsValueZero(fv) ||
 f.options.Contains("omitNil") && encoding.IsValueNil(fv)`. -/
def omitSkip (f : Field) (fv : GoValue) : Bool :=
  (optsContains f.options "omitZero" && isValueZero fv)
    || (optsContains f.options "omitNil" && isValueNil fv)

/-- The loop body of `structEncoder.encode`: walk the field descriptors,
skip invalid navigations and omitted values, and assign every other encoded
field value into the result map. -/
def encodeFieldsList (enc : GoType → GoValue → Except String GoValue)
    (t : GoType) (v : GoValue) :
    List Field → MapOut → Except String MapOut
  | [], m => .ok m
  | f :: rest, m =>
      match fieldByIndex v f.index with
      | none => encodeFieldsList enc t v rest m
      | some fv =>
          if omitSkip f fv then encodeFieldsList enc t v rest m
          else
            match fieldEnc enc t f fv with
            | .error e => .error e
            | .ok ev => encodeFieldsList enc t v rest (mapSet m f.name ev)

/-- `newEncodeValueFn` composed with the encoders it selects: a `Marshaler`
type defers to `encodeMarshaller`; a plain struct type runs `typeFields`
and then `structEncoder.encode`; everything else is `encodeInterface`, the
identity.  The fuel only bounds the nesting depth of the type (strictly
more than needed at every call site).  Complete entries of
`lookupEncodeFn`'s cache are semantically the identity and are elided
here; the cache's observable failure-path state (the stuck indirect
entry left by a panicked install) is modelled by `marshalCached`. -/
def encodeValue (cfg : Config) : Nat → GoType → GoValue →
    Except String GoValue
  | 0, _, _ => .error "encode fuel exhausted"
  | fuel + 1, t, v =>
      if implementsMarshaler t then encodeMarshaller v
      else if structKindB t then
        match typeFields cfg t with
        | .error e => .error e
        | .ok flds =>
            match encodeFieldsList (encodeValue cfg fuel) t v flds [] with
            | .error e => .error e
            | .ok m => .ok (.vmap m)
      else .ok v

/-- The `ret.(map[string]interface{})` assertion at the end of `marshal`.
In Go a failed assertion is a runtime panic that crashes the process; it is
modelled as an error (it is unreachable for struct-kind arguments whose
`Marshaler` overrides return maps). -/
def expectMap : GoValue → Except String MapOut
  | .vmap m => .ok m
  | _ => .error "interface conversion: interface is not a map"

/-- `(cfg *Config) marshal`: dereference a top-level pointer, insist on a
struct kind, encode, and hand back either the mapping or the recovered
panic as an error. -/
def marshal (cfg : Config) (t : GoType) (v : GoValue) :
    Except String MapOut :=
  let tv : Option (GoType × GoValue) :=
    match t, v with
    | .tptr te, .vptr (some w) => some (te, w)
    | .tptr _, .vptr none => none
    | t₀, v₀ => some (t₀, v₀)
  match tv with
  | none => .error "src must be a struct, or pointer-to-struct"
  | some (t', v') =>
      if structKindB t' then
        match encodeValue cfg (t'.size + 1) t' v' with
        | .error e => .error e
        | .ok r => expectMap r
      else .error "src must be a struct, or pointer-to-struct"

/-- `Marshal`, the exported entry point with the default configuration. -/
def Marshal (t : GoType) (v : GoValue) : Except String MapOut :=
  marshal defaultConfig t v

mutual
/-- Structural equality of `GoType`: the cache key holds a `reflect.Type`,
whose comparison is type identity — in this model, structural equality of
the observed types. -/
def GoType.beq : GoType → GoType → Bool
  | .tint, .tint => true
  | .tstring, .tstring => true
  | .tbool, .tbool => true
  | .tptr a, .tptr b => GoType.beq a b
  | .tstruct n1 f1, .tstruct n2 f2 => n1 == n2 && GoField.beqList f1 f2
  | .tmarshaler n1, .tmarshaler n2 => n1 == n2
  | .tmarshalerStruct n1 f1, .tmarshalerStruct n2 f2 =>
      n1 == n2 && GoField.beqList f1 f2
  | _, _ => false

/-- Structural equality of one declared field. -/
def GoField.beq : GoField → GoField → Bool
  | .mk n1 t1 a1 e1 ty1, .mk n2 t2 a2 e2 ty2 =>
      n1 == n2 && t1 == t2 && a1 == a2 && e1 == e2 && GoType.beq ty1 ty2

/-- Structural equality of declared field lists. -/
def GoField.beqList : List GoField → List GoField → Bool
  | [], [] => true
  | f :: fs, g :: gs => GoField.beq f g && GoField.beqList fs gs
  | _, _ => false
end

/-- Whether the cache already holds, for this type's key, the stuck
indirect `encodeFn` left behind by a panicked install. -/
def pendingHas (pending : List GoType) (t : GoType) : Bool :=
  pending.any (fun u => GoType.beq u t)

/-- The observable outcome of one `Marshal` call once the process-global
`encodeFnCache` is modelled: a mapping, a recovered error, or the deadlock
of calling the stuck indirect `encodeFn` (`wg.Wait()` on a `WaitGroup`
that will never be released). -/
inductive MOutcome where
  | ok (m : MapOut)
  | err (e : String)
  | hang

/-- `(cfg *Config) marshal` with the `encodeFnCache` state threaded
through, mirroring `lookupEncodeFn` for the top-level key (the key pairs
the dereferenced type with the configuration, so `pending` is the slice of
the cache at this `cfg`):
* the pointer dereference and struct-kind screen precede the lookup;
* a `Load` hit on a pending key calls the stored indirect fn, whose
  `wg.Wait()` blocks forever — the call hangs;
* on a miss, `LoadOrStore` installs the indirect fn and `newEncodeValueFn`
  runs: a `Marshaler` type gets `encodeMarshaller` (no `typeFields`, the
  install always completes), while a plain struct type runs
  `newStructEncoder`, whose `typeFields` panic unwinds before `wg.Done()`
  and the final `Store` — the key stays pending while the `recover` in
  `marshal` converts the panic to the returned error;
* a completed install is stored and behaves as the pure `marshal`
  (errors recovered during encoding proper, such as a `MarshalMapValue`
  failure, happen after the install completed and strand nothing).
`newStructEncoder` also installs the field types eagerly, with the same
flaw, so a shape error in a nested type strands further keys; only the
top-level key is tracked here, under-approximating the stranded set. -/
def marshalCached (cfg : Config) (pending : List GoType) (t : GoType)
    (v : GoValue) : MOutcome × List GoType :=
  let tv : Option (GoType × GoValue) :=
    match t, v with
    | .tptr te, .vptr (some w) => some (te, w)
    | .tptr _, .vptr none => none
    | t₀, v₀ => some (t₀, v₀)
  match tv with
  | none => (.err "src must be a struct, or pointer-to-struct", pending)
  | some (t', _) =>
      if structKindB t' then
        if pendingHas pending t' then (.hang, pending)
        else if implementsMarshaler t' then
          match marshal cfg t v with
          | .error e => (.err e, pending)
          | .ok m => (.ok m, pending)
        else
          match typeFields cfg t' with
          | .error e => (.err e, t' :: pending)
          | .ok _ =>
              match marshal cfg t v with
              | .error e => (.err e, pending)
              | .ok m => (.ok m, pending)
      else (.err "src must be a struct, or pointer-to-struct", pending)

/-! ## Structural lemmas about sorting, grouping and annihilation -/

mutual
/-- `GoType.beq` is reflexive (a type's key always hits its own cache
entry). -/
theorem GoType.beq_refl : ∀ t : GoType, GoType.beq t t = true
  | .tint => rfl
  | .tstring => rfl
  | .tbool => rfl
  | .tptr e => by
      rw [GoType.beq]
      exact GoType.beq_refl e
  | .tstruct n fs => by
      rw [GoType.beq, GoField.beqList_refl fs]
      simp
  | .tmarshaler n => by
      rw [GoType.beq]
      simp
  | .tmarshalerStruct n fs => by
      rw [GoType.beq, GoField.beqList_refl fs]
      simp

/-- `GoField.beq` is reflexive. -/
theorem GoField.beq_self : ∀ f : GoField, GoField.beq f f = true
  | .mk n t a e ty => by
      rw [GoField.beq, GoType.beq_refl ty]
      simp

/-- `GoField.beqList` is reflexive. -/
theorem GoField.beqList_refl :
    ∀ fs : List GoField, GoField.beqList fs fs = true
  | [] => rfl
  | f :: fs => by
      rw [GoField.beqList, GoField.beq_self f, GoField.beqList_refl fs]
      simp
end

theorem mem_sortInsert {less : Field → Field → Bool} {a x : Field}
    {l : List Field} (h : x ∈ sortInsert less a l) : x = a ∨ x ∈ l := by
  induction l with
  | nil => simpa [sortInsert] using h
  | cons b l ih =>
      simp only [sortInsert] at h
      by_cases hb : less b a
      · simp only [hb, if_pos] at h
        rcases List.mem_cons.mp h with h | h
        · exact Or.inr (List.mem_cons.mpr (Or.inl h))
        · rcases ih h with h | h
          · exact Or.inl h
          · exact Or.inr (List.mem_cons.mpr (Or.inr h))
      · simp only [hb, if_neg, Bool.false_eq_true, not_false_iff] at h
        rcases List.mem_cons.mp h with h | h
        · exact Or.inl h
        · exact Or.inr h

theorem mem_sortFields {less : Field → Field → Bool} {x : Field}
    {l : List Field} (h : x ∈ sortFields less l) : x ∈ l := by
  induction l with
  | nil => simpa [sortFields] using h
  | cons a l ih =>
      simp only [sortFields] at h
      rcases mem_sortInsert h with h | h
      · exact h ▸ List.mem_cons_self _ _
      · exact List.mem_cons.mpr (Or.inr (ih h))

theorem groupRuns_join (l : List Field) : (groupRuns l).flatten = l := by
  induction l with
  | nil => rfl
  | cons f rest ih =>
      simp only [groupRuns]
      rcases hg : groupRuns rest with _ | ⟨g, gs⟩
      · simp only [List.flatten]
        rw [hg] at ih
        simpa using ih.symm ▸ rfl
      · rw [hg] at ih
        cases g with
        | nil => simpa using ih
        | cons h gtl =>
            by_cases hname : f.name = h.name
            · simp only [hname, if_pos]
              simpa using ih
            · simp only [hname, if_neg, not_false_iff]
              simpa using ih

theorem mem_of_mem_groupRuns {l : List Field} {grp : List Field}
    {x : Field} (hg : grp ∈ groupRuns l) (hx : x ∈ grp) : x ∈ l := by
  have : x ∈ (groupRuns l).flatten := List.mem_flatten.mpr ⟨grp, hg, hx⟩
  rwa [groupRuns_join] at this

theorem resolveGroup_mem {tname : String} {grp : List Field} {w : Field}
    (h : resolveGroup tname grp = .ok w) : w ∈ grp := by
  unfold resolveGroup at h
  split at h
  · exact absurd h (by simp)
  · rename_i g0 tl
    dsimp only at h
    split at h
    · split at h
      · exact absurd h (by simp)
      · cases h
        exact List.mem_cons_self _ _
    · rename_i w1 hfilter
      cases h
      have hw : w ∈ (List.takeWhile
          (fun f => decide (f.index.length ≤ g0.index.length))
          (g0 :: tl)).filter (·.tagged) := by
        rw [hfilter]; exact List.mem_cons_self _ _
      exact (List.takeWhile_sublist _).subset (List.mem_of_mem_filter hw)
    · exact absurd h (by simp)

theorem resolveAll_mem {tname : String} {gs : List (List Field)}
    {out : List Field} {w : Field} (h : resolveAll tname gs = .ok out)
    (hw : w ∈ out) : ∃ g ∈ gs, resolveGroup tname g = .ok w := by
  induction gs generalizing out with
  | nil =>
      simp only [resolveAll] at h
      cases h
      simp at hw
  | cons g gs ih =>
      simp only [resolveAll] at h
      rcases hr : resolveGroup tname g with e | w1
      · rw [hr] at h; simp at h
      · rw [hr] at h
        rcases ha : resolveAll tname gs with e | ws
        · rw [ha] at h; simp at h
        · rw [ha] at h
          cases h
          rcases List.mem_cons.mp hw with hw | hw
          · exact ⟨g, List.mem_cons_self _ _, hw ▸ hr⟩
          · rcases ih ha hw with ⟨g', hg', hres⟩
            exact ⟨g', List.mem_cons.mpr (Or.inr hg'), hres⟩

theorem resolveAll_error_of_group {tname : String} {gs : List (List Field)}
    {g : List Field} {e : String} (hg : g ∈ gs)
    (h : resolveGroup tname g = .error e) :
    ∃ e', resolveAll tname gs = .error e' := by
  induction gs with
  | nil => simp at hg
  | cons g1 gs ih =>
      rcases List.mem_cons.mp hg with hg1 | hgs
      · subst hg1
        exact ⟨e, by simp [resolveAll, h]⟩
      · rcases hr : resolveGroup tname g1 with e1 | w
        · exact ⟨e1, by simp [resolveAll, hr]⟩
        · rcases ih hgs with ⟨e', he'⟩
          exact ⟨e', by simp [resolveAll, hr, he']⟩

/-- Every descriptor returned by `typeFields` is one of the candidates the
breadth-first collection phase produced. -/
theorem typeFields_mem_collect {cfg : Config} {t : GoType}
    {flds : List Field} {f : Field} (h : typeFields cfg t = .ok flds)
    (hf : f ∈ flds) : f ∈ collectFields cfg t := by
  simp only [typeFields] at h
  rcases ha : annihilate (typeName t) (sortFields fieldLess
      (collectFields cfg t)) with e | out
  · rw [ha] at h; simp at h
  · rw [ha] at h
    cases h
    have hf' : f ∈ out := mem_sortFields hf
    simp only [annihilate] at ha
    rcases resolveAll_mem ha hf' with ⟨g, hg, hres⟩
    exact mem_sortFields
      (mem_of_mem_groupRuns hg (resolveGroup_mem hres))

/-! ## Lemmas about the encoder -/

theorem mapGet_mapSet (m : MapOut) (k k' : String) (v : GoValue) :
    mapGet (mapSet m k v) k' = if k' = k then some v else mapGet m k' := by
  induction m with
  | nil =>
      simp only [mapSet, mapGet]
      by_cases h : k' = k
      · simp [h]
      · simp [h, Ne.symm h]
  | cons p rest ih =>
      obtain ⟨k1, v1⟩ := p
      simp only [mapSet]
      by_cases h1 : k1 = k
      · subst h1
        simp only [if_pos rfl, mapGet]
        by_cases h2 : k1 = k'
        · simp [h2]
        · simp [h2, Ne.symm h2]
      · simp only [if_neg h1, mapGet, ih]
        by_cases h2 : k1 = k'
        · subst h2
          simp [h1, Ne.symm h1]
        · simp [h2]

theorem encodeFieldsList_ok_absent
    {enc : GoType → GoValue → Except String GoValue} {t : GoType}
    {v : GoValue} {nm : String} :
    ∀ {flds : List Field} {m0 m : MapOut},
    (∀ g ∈ flds, g.name ≠ nm) →
    encodeFieldsList enc t v flds m0 = .ok m →
    mapGet m nm = mapGet m0 nm := by
  intro flds
  induction flds with
  | nil =>
      intro m0 m _ h
      simp only [encodeFieldsList] at h
      cases h; rfl
  | cons f rest ih =>
      intro m0 m habs h
      have hfname : f.name ≠ nm := habs f (List.mem_cons_self _ _)
      have habs' : ∀ g ∈ rest, g.name ≠ nm := fun g hg =>
        habs g (List.mem_cons.mpr (Or.inr hg))
      simp only [encodeFieldsList] at h
      rcases hfi : fieldByIndex v f.index with _ | fv
      · rw [hfi] at h
        exact ih habs' h
      · rw [hfi] at h
        dsimp only at h
        by_cases hskip : omitSkip f fv
        · rw [if_pos hskip] at h
          exact ih habs' h
        · rw [if_neg hskip] at h
          rcases hfe : fieldEnc enc t f fv with e | ev
          · rw [hfe] at h; simp at h
          · rw [hfe] at h
            have := ih habs' h
            rw [this, mapGet_mapSet, if_neg (fun h' => hfname h'.symm)]

theorem encodeFieldsList_append
    {enc : GoType → GoValue → Except String GoValue} {t : GoType}
    {v : GoValue} :
    ∀ (pre rest : List Field) (m0 : MapOut),
    encodeFieldsList enc t v (pre ++ rest) m0 =
      match encodeFieldsList enc t v pre m0 with
      | .error e => .error e
      | .ok m1 => encodeFieldsList enc t v rest m1 := by
  intro pre
  induction pre with
  | nil => intro rest m0; rfl
  | cons f pre ih =>
      intro rest m0
      simp only [List.cons_append, encodeFieldsList, List.append_eq]
      rcases hfi : fieldByIndex v f.index with _ | fv
      · dsimp only
        exact ih rest m0
      · dsimp only
        by_cases hskip : omitSkip f fv
        · rw [if_pos hskip, if_pos hskip]
          exact ih rest m0
        · rw [if_neg hskip, if_neg hskip]
          rcases hfe : fieldEnc enc t f fv with e | ev
          · rfl
          · dsimp only
            exact ih rest _

/-- The central bookkeeping fact about `structEncoder.encode`'s loop: when
the descriptor names are distinct, the final mapping at a descriptor's name
is determined by that descriptor alone — untouched when its navigation is
invalid or its omission test fires, and otherwise exactly its encoded
value. -/
theorem encodeFieldsList_lookup
    {enc : GoType → GoValue → Except String GoValue} {t : GoType}
    {v : GoValue} {f : Field} :
    ∀ {flds : List Field} {m0 m : MapOut},
    (flds.map Field.name).Nodup → f ∈ flds →
    encodeFieldsList enc t v flds m0 = .ok m →
    (fieldByIndex v f.index = none → mapGet m f.name = mapGet m0 f.name) ∧
    (∀ fv, fieldByIndex v f.index = some fv →
      (omitSkip f fv = true → mapGet m f.name = mapGet m0 f.name) ∧
      (omitSkip f fv = false →
        ∃ ev, fieldEnc enc t f fv = .ok ev ∧
          mapGet m f.name = some ev)) := by
  intro flds
  induction flds with
  | nil => intro m0 m _ hf; simp at hf
  | cons g rest ih =>
      intro m0 m hnd hf h
      rw [List.map_cons, List.nodup_cons] at hnd
      obtain ⟨hgn, hnd'⟩ := hnd
      rcases List.mem_cons.mp hf with hfg | hfr
      · -- f is the head; no later descriptor shares its name
        subst hfg
        have habs : ∀ g' ∈ rest, g'.name ≠ f.name := by
          intro g' hg' hEq
          exact hgn (hEq ▸ List.mem_map_of_mem Field.name hg')
        simp only [encodeFieldsList] at h
        constructor
        · intro hfi
          rw [hfi] at h
          exact encodeFieldsList_ok_absent habs h
        · intro fv hfi
          rw [hfi] at h
          dsimp only at h
          constructor
          · intro hskip
            rw [if_pos hskip] at h
            exact encodeFieldsList_ok_absent habs h
          · intro hskip
            rw [if_neg (by simp [hskip])] at h
            rcases hfe : fieldEnc enc t f fv with e | ev
            · rw [hfe] at h; simp at h
            · rw [hfe] at h
              refine ⟨ev, rfl, ?_⟩
              rw [encodeFieldsList_ok_absent habs h, mapGet_mapSet,
                if_pos rfl]
      · -- f occurs later; the head has a different name
        have hneq : g.name ≠ f.name := by
          intro hEq
          exact hgn (hEq ▸ List.mem_map_of_mem Field.name hfr)
        simp only [encodeFieldsList] at h
        rcases hfi : fieldByIndex v g.index with _ | gv
        · rw [hfi] at h
          exact ih hnd' hfr h
        · rw [hfi] at h
          dsimp only at h
          by_cases hskip : omitSkip g gv
          · rw [if_pos hskip] at h
            exact ih hnd' hfr h
          · rw [if_neg hskip] at h
            rcases hfe : fieldEnc enc t g gv with e | ev
            · rw [hfe] at h; simp at h
            · rw [hfe] at h
              have hmain := ih hnd' hfr h
              have hget : mapGet (mapSet m0 g.name ev) f.name
                  = mapGet m0 f.name := by
                rw [mapGet_mapSet, if_neg (fun h' => hneq h'.symm)]
              refine ⟨?_, ?_⟩
              · intro hnone
                rw [hmain.1 hnone, hget]
              · intro fv hsome
                refine ⟨?_, ?_⟩
                · intro hskipf
                  rw [(hmain.2 fv hsome).1 hskipf, hget]
                · exact (hmain.2 fv hsome).2

theorem size_pos (t : GoType) : 0 < t.size := by
  cases t <;> simp [GoType.size]

/-- With any positive fuel, the encoder defers to `encodeMarshaller` on a
type implementing the capability. -/
theorem encodeValue_marshaler {cfg : Config} {u : GoType} {fv : GoValue}
    (h : implementsMarshaler u = true) {fuel : Nat} (hf : 0 < fuel) :
    encodeValue cfg fuel u fv = encodeMarshaller fv := by
  cases fuel with
  | zero => exact absurd hf (lt_irrefl 0)
  | succ n => simp [encodeValue, h]

/-- With any positive fuel, the encoder is the identity on non-struct
types that do not implement the capability. -/
theorem encodeValue_passthrough {cfg : Config} {u : GoType} {fv : GoValue}
    (h1 : implementsMarshaler u = false) (h2 : structKindB u = false)
    {fuel : Nat} (hf : 0 < fuel) :
    encodeValue cfg fuel u fv = .ok fv := by
  cases fuel with
  | zero => exact absurd hf (lt_irrefl 0)
  | succ n => simp [encodeValue, h1, h2]

/-- `marshal` on a plain struct type, unfolded to field resolution followed
by the struct-encoder loop. -/
theorem marshal_tstruct (cfg : Config) (nm : String) (fs : List GoField)
    (v : GoValue) :
    marshal cfg (.tstruct nm fs) v =
      match typeFields cfg (.tstruct nm fs) with
      | .error e => .error e
      | .ok flds =>
          match encodeFieldsList
              (encodeValue cfg (GoType.tstruct nm fs).size)
              (.tstruct nm fs) v flds [] with
          | .error e => .error e
          | .ok m => .ok m := by
  show (match encodeValue cfg ((GoType.tstruct nm fs).size + 1)
      (.tstruct nm fs) v with
    | Except.error e => Except.error e
    | Except.ok r => expectMap r)
    = (match typeFields cfg (.tstruct nm fs) with
      | Except.error e => Except.error e
      | Except.ok flds =>
          match encodeFieldsList
              (encodeValue cfg (GoType.tstruct nm fs).size)
              (.tstruct nm fs) v flds [] with
          | Except.error e => Except.error e
          | Except.ok m => Except.ok m)
  rw [show encodeValue cfg ((GoType.tstruct nm fs).size + 1)
      (.tstruct nm fs) v
      = (match typeFields cfg (.tstruct nm fs) with
        | .error e => .error e
        | .ok flds =>
            match encodeFieldsList
                (encodeValue cfg (GoType.tstruct nm fs).size)
                (.tstruct nm fs) v flds [] with
            | .error e => .error e
            | .ok m => .ok (.vmap m)) from rfl]
  rcases h1 : typeFields cfg (.tstruct nm fs) with e | flds
  · rfl
  · dsimp only
    rcases h2 : encodeFieldsList
        (encodeValue cfg (GoType.tstruct nm fs).size)
        (.tstruct nm fs) v flds [] with e | m
    · rfl
    · rfl

/-- A shape error from field resolution aborts every `marshal` call on the
type with that very error, whatever the value. -/
theorem marshal_error_of_typeFields_error {cfg : Config} {nm : String}
    {fs : List GoField} {e : String}
    (h : typeFields cfg (.tstruct nm fs) = .error e) (v : GoValue) :
    marshal cfg (.tstruct nm fs) v = .error e := by
  rw [marshal_tstruct, h]

/-- A successful `marshal` on a plain struct type is exactly a successful
run of the struct-encoder loop over the resolved descriptors. -/
theorem marshal_ok_fields {cfg : Config} {nm : String}
    {fs : List GoField} {v : GoValue} {flds : List Field} {m : MapOut}
    (ht : typeFields cfg (.tstruct nm fs) = .ok flds)
    (h : marshal cfg (.tstruct nm fs) v = .ok m) :
    encodeFieldsList (encodeValue cfg (GoType.tstruct nm fs).size)
      (.tstruct nm fs) v flds [] = .ok m := by
  rw [marshal_tstruct, ht] at h
  dsimp only at h
  rcases h2 : encodeFieldsList (encodeValue cfg (GoType.tstruct nm fs).size)
      (.tstruct nm fs) v flds [] with e | m'
  · rw [h2] at h; simp at h
  · rw [h2] at h
    cases h
    rfl

/-! ## The resolved flags of every collected candidate

Every leaf recorded by the breadth-first scan carries `omitZero`, `omitNil`
and `asValue` flags computed by `resolvedOmitZero` / `resolvedOmitNil` /
`Contains "value"` from its own parsed options. -/

/-- The relation between a candidate's stored flags and its stored
options, as established by the scan. -/
def flagsFromOptions (cfg : Config) (x : Field) : Prop :=
  x.omitZero = resolvedOmitZero cfg x.options ∧
    x.omitNil = resolvedOmitNil cfg x.options ∧
    x.asValue = optsContains x.options "value"

theorem scanField_leaves_inv {cfg : Config} {f : Field} {cnt : Nat}
    {acc : ScanAcc} {i : Nat} {sf : GoField} {x : Field}
    (hx : x ∈ (scanField cfg f cnt acc i sf).leaves) :
    x ∈ acc.leaves ∨ flagsFromOptions cfg x := by
  simp only [scanField] at hx
  split_ifs at hx
  all_goals try exact Or.inl hx
  all_goals dsimp only at hx
  all_goals try exact Or.inl hx
  all_goals
    rcases List.mem_append.mp hx with hx | hx
  all_goals try exact Or.inl hx
  all_goals right
  all_goals
    simp only [List.mem_cons, List.not_mem_nil, or_false] at hx
  all_goals
    first
      | (subst hx; exact ⟨rfl, rfl, rfl⟩)
      | (rcases hx with hx | hx <;> (subst hx; exact ⟨rfl, rfl, rfl⟩))

theorem scanStruct_leaves_inv {cfg : Config} {f : Field} {cnt : Nat} :
    ∀ {l : List (Nat × GoField)} {acc : ScanAcc} {x : Field},
    x ∈ (l.foldl (fun acc p => scanField cfg f cnt acc p.1 p.2)
      acc).leaves →
    x ∈ acc.leaves ∨ flagsFromOptions cfg x := by
  intro l
  induction l with
  | nil => intro acc x hx; exact Or.inl hx
  | cons p l ih =>
      intro acc x hx
      rcases ih (by simpa using hx) with hx' | hq
      · exact scanField_leaves_inv hx'
      · exact Or.inr hq

theorem levelFold_fields_inv {cfg : Config}
    {count : List (String × Nat)} :
    ∀ {current : List Field}
    {st : List Field × List Field × List (String × Nat) × List String}
    {x : Field},
    x ∈ (current.foldl (levelStep cfg count) st).1 →
    x ∈ st.1 ∨ flagsFromOptions cfg x := by
  intro current
  induction current with
  | nil => intro st x hx; exact Or.inl hx
  | cons f current ih =>
      intro st x hx
      rw [List.foldl_cons] at hx
      rcases ih hx with hx' | hq
      · obtain ⟨fields, next, nextCount, visited⟩ := st
        simp only [levelStep] at hx'
        by_cases hv : typeName f.typ ∈ visited
        · rw [if_pos hv] at hx'
          exact Or.inl hx'
        · rw [if_neg hv] at hx'
          dsimp only at hx'
          rcases List.mem_append.mp hx' with hx'' | hx''
          · exact Or.inl hx''
          · rcases scanStruct_leaves_inv
              (by simpa [scanStruct] using hx'') with h | h
            · simp at h
            · exact Or.inr h
      · exact Or.inr hq

theorem processLevel_fields_inv {cfg : Config}
    {current : List Field} {count : List (String × Nat)}
    {visited : List String} {fields : List Field} {x : Field}
    (hx : x ∈ (processLevel cfg current count visited fields).1) :
    x ∈ fields ∨ flagsFromOptions cfg x :=
  levelFold_fields_inv hx

theorem typeFieldsLoop_fields_inv {cfg : Config} :
    ∀ {fuel : Nat} {next : List Field} {nextCount : List (String × Nat)}
    {visited : List String} {fields : List Field} {x : Field},
    x ∈ typeFieldsLoop cfg fuel next nextCount visited fields →
    x ∈ fields ∨ flagsFromOptions cfg x := by
  intro fuel
  induction fuel with
  | zero => intro _ _ _ _ _ hx; exact Or.inl hx
  | succ fuel ih =>
      intro next nextCount visited fields x hx
      simp only [typeFieldsLoop] at hx
      cases next with
      | nil => exact Or.inl hx
      | cons f next' =>
          rcases ih hx with hx' | hq
          · exact processLevel_fields_inv hx'
          · exact Or.inr hq

/-- Every candidate collected for a type satisfies the flag relation. -/
theorem collectFields_inv {cfg : Config} {t : GoType} {x : Field}
    (hx : x ∈ collectFields cfg t) : flagsFromOptions cfg x := by
  rcases typeFieldsLoop_fields_inv hx with h | h
  · simp at h
  · exact h

/-- Every descriptor `typeFields` returns satisfies the flag relation. -/
theorem typeFields_flags {cfg : Config} {t : GoType} {flds : List Field}
    {f : Field} (h : typeFields cfg t = .ok flds) (hf : f ∈ flds) :
    flagsFromOptions cfg f :=
  collectFields_inv (typeFields_mem_collect h hf)

/-- Under the default configuration the resolved `omitZero` flag is
exactly the presence of the (case-insensitive) `omitZero` option; likewise
for `omitNil`. -/
theorem resolvedOmit_default (opts : TagOpts) :
    resolvedOmitZero defaultConfig opts = optsContains opts "omitZero" ∧
    resolvedOmitNil defaultConfig opts = optsContains opts "omitNil" := by
  constructor
  · by_cases h1 : optsContains opts "omitZero" <;>
      by_cases h2 : optsContains opts "noOmitZero" <;>
      simp [resolvedOmitZero, h1, h2, defaultConfig]
  · by_cases h1 : optsContains opts "omitNil" <;>
      by_cases h2 : optsContains opts "noOmitNil" <;>
      simp [resolvedOmitNil, h1, h2, defaultConfig]

/-! ## Case-insensitivity of the tag options -/

theorem charOfNat_toNat {n : Nat} (h : n < 55296) :
    (Char.ofNat n).toNat = n := by
  simp [Char.ofNat, Nat.isValidChar, h, Char.ofNatAux, Char.toNat,
    UInt32.toNat, BitVec.toNat_ofNat]

theorem toNat_ge_of_upper {c : Char} (h1 : 'A' ≤ c) : 65 ≤ c.toNat := by
  simpa [Char.le_def, UInt32.le_def] using h1

theorem toNat_le_of_upper {c : Char} (h2 : c ≤ 'Z') : c.toNat ≤ 90 := by
  simpa [Char.le_def, UInt32.le_def] using h2

/-- For a separator below the letter range (such as `','` or `'='`), ASCII
case folding neither creates nor destroys occurrences of it. -/
theorem lowerChar_eq_iff {sep : Char} (hsep : sep.toNat < 65) (c : Char) :
    (lowerChar c = sep) ↔ (c = sep) := by
  by_cases hc : 'A' ≤ c ∧ c ≤ 'Z'
  · have h1 : 65 ≤ c.toNat := toNat_ge_of_upper hc.1
    have h2 : c.toNat ≤ 90 := toNat_le_of_upper hc.2
    have hl : (lowerChar c).toNat = c.toNat + 32 := by
      rw [show lowerChar c = Char.ofNat (c.toNat + 32) from if_pos hc]
      exact charOfNat_toNat (by omega)
    have hcne : c ≠ sep := fun h => by
      rw [h] at h1; omega
    have hlne : lowerChar c ≠ sep := fun h => by
      have := congrArg Char.toNat h
      rw [hl] at this; omega
    simp [hcne, hlne]
  · rw [show lowerChar c = c from if_neg hc]

theorem splitCharGo_ne_nil (sep : Char) (l : List Char) :
    splitCharGo sep l ≠ [] := by
  cases l with
  | nil => simp [splitCharGo]
  | cons c rest =>
      simp only [splitCharGo]
      split_ifs
      · simp
      · rcases h : splitCharGo sep rest with _ | ⟨hd, tl⟩ <;> simp

/-- ASCII case folding commutes with splitting on a sub-letter-range
separator. -/
theorem splitCharGo_map_lower {sep : Char} (hsep : sep.toNat < 65) :
    ∀ l : List Char,
    splitCharGo sep (l.map lowerChar) = (splitCharGo sep l).map toLower := by
  intro l
  induction l with
  | nil => rfl
  | cons c rest ih =>
      simp only [List.map_cons, splitCharGo]
      by_cases hc : c = sep
      · rw [if_pos ((lowerChar_eq_iff hsep c).mpr hc), if_pos hc, ih]
        rfl
      · rw [if_neg (fun h => hc ((lowerChar_eq_iff hsep c).mp h)),
          if_neg hc, ih]
        rcases h : splitCharGo sep rest with _ | ⟨hd, tl⟩
        · exact absurd h (splitCharGo_ne_nil sep rest)
        · rfl

theorem splitChar_toLower {sep : Char} (hsep : sep.toNat < 65)
    (s : String) :
    splitChar sep (toLower s) = (splitChar sep s).map toLower :=
  splitCharGo_map_lower hsep s.data

theorem mapReadStr_assign (m : List (String × String)) (k k' v : String) :
    mapReadStr (mapAssignStr m k v) k'
      = if k' = k then some v else mapReadStr m k' := by
  induction m with
  | nil =>
      simp only [mapAssignStr, mapReadStr]
      by_cases h : k' = k
      · simp [h]
      · simp [h, Ne.symm h]
  | cons p rest ih =>
      obtain ⟨k1, v1⟩ := p
      simp only [mapAssignStr]
      by_cases h1 : k1 = k
      · subst h1
        simp only [if_pos rfl, mapReadStr]
        by_cases h2 : k1 = k'
        · simp [h2]
        · simp [h2, Ne.symm h2]
      · simp only [if_neg h1, mapReadStr, ih]
        by_cases h2 : k1 = k'
        · subst h2
          simp [h1, Ne.symm h1]
        · simp [h2]

/-- Two option maps that agree on which (lowercased) keys are present. -/
def keysAligned (o1 o2 : TagOpts) : Prop :=
  ∀ k : String, (mapReadStr o1 k).isSome = (mapReadStr o2 k).isSome

theorem keysAligned_setOption {o1 o2 : TagOpts} {s1 s2 v1 v2 : String}
    (ho : keysAligned o1 o2) (hs : toLower s1 = toLower s2) :
    keysAligned (setOption o1 s1 v1) (setOption o2 s2 v2) := by
  intro k
  simp only [setOption, mapReadStr_assign, hs]
  by_cases h : k = toLower s2
  · simp [h]
  · simp [h, ho k]

theorem keysAligned_addOption {o1 o2 : TagOpts} {s1 s2 : String}
    (ho : keysAligned o1 o2) (hs : toLower s1 = toLower s2) :
    keysAligned (addOption o1 s1) (addOption o2 s2) := by
  have hsplit : (splitChar '=' s1).map toLower
      = (splitChar '=' s2).map toLower := by
    rw [← splitChar_toLower (by decide), ← splitChar_toLower (by decide),
      hs]
  unfold addOption
  rcases h1 : splitChar '=' s1 with _ | ⟨b1, r1⟩
  · exact absurd h1 (splitCharGo_ne_nil '=' s1.data)
  · rcases h2 : splitChar '=' s2 with _ | ⟨b2, r2⟩
    · exact absurd h2 (splitCharGo_ne_nil '=' s2.data)
    · rw [h1, h2] at hsplit
      simp only [List.map_cons, List.cons.injEq] at hsplit
      obtain ⟨hb, hr⟩ := hsplit
      cases r1 with
      | nil =>
          cases r2 with
          | nil => exact keysAligned_setOption ho hs
          | cons x xs => simp at hr
      | cons x xs =>
          cases r2 with
          | nil => simp at hr
          | cons y ys => exact keysAligned_setOption ho hb

theorem keysAligned_foldl {l1 : List String} :
    ∀ {l2 : List String} {o1 o2 : TagOpts},
    keysAligned o1 o2 → l1.map toLower = l2.map toLower →
    keysAligned (l1.foldl addOption o1) (l2.foldl addOption o2) := by
  induction l1 with
  | nil =>
      intro l2 o1 o2 ho hl
      cases l2 with
      | nil => exact ho
      | cons s l2 => simp at hl
  | cons s1 l1 ih =>
      intro l2 o1 o2 ho hl
      cases l2 with
      | nil => simp at hl
      | cons s2 l2 =>
          simp only [List.map_cons, List.cons.injEq] at hl
          exact @ih l2 _ _ (keysAligned_addOption ho hl.1) hl.2

/-- Claim C5: evaluated at the failing input — a tag whose single option
segment is `k=v`.  The parser stores the option under name `k` but with
value `"k"` (the text before the `=`), not the value `"v"` after the `=`
that the specification describes; the text after the `=` is discarded. -/
theorem claim_C5_parseTag_eval :
    parseTag ",k=v" = ("", [("k", "k")]) ∧
      getOption (parseTag ",k=v").2 "k" = some "k" ∧
      getOption (parseTag ",k=v").2 "k" ≠ some "v" := by
  refine ⟨rfl, rfl, ?_⟩
  decide

/-- Claim C10: for two tag strings that agree up to ASCII letter case (and
resolve the same name), every option-presence lookup agrees — the parser
stores options under lowercased names and lowercases queried names — so
the resolved field options (`omitZero`, `omitNil`, `value`) coincide under
every configuration; in particular a field tagged `",OMITZERO"` marshals
exactly as one tagged `",omitZero"`. -/
theorem claim_C10 {tag1 tag2 : String}
    (hlow : toLower tag1 = toLower tag2) :
    (∀ q, optsContains (parseTag tag1).2 q
      = optsContains (parseTag tag2).2 q) ∧
    (∀ cfg : Config,
      resolvedOmitZero cfg (parseTag tag1).2
        = resolvedOmitZero cfg (parseTag tag2).2 ∧
      resolvedOmitNil cfg (parseTag tag1).2
        = resolvedOmitNil cfg (parseTag tag2).2) ∧
    optsContains (parseTag tag1).2 "value"
      = optsContains (parseTag tag2).2 "value" ∧
    Marshal (.tstruct "S" [.mk "A" ",OMITZERO" false true .tint])
        (.vstruct [.vint 0])
      = Marshal (.tstruct "S" [.mk "A" ",omitZero" false true .tint])
        (.vstruct [.vint 0]) := by
  have hsegs : (splitChar ',' tag1).map toLower
      = (splitChar ',' tag2).map toLower := by
    rw [← splitChar_toLower (by decide), ← splitChar_toLower (by decide),
      hlow]
  have htails : (splitChar ',' tag1).tail.map toLower
      = (splitChar ',' tag2).tail.map toLower := by
    rcases h1 : splitChar ',' tag1 with _ | ⟨a1, r1⟩
    · exact absurd h1 (splitCharGo_ne_nil ',' tag1.data)
    · rcases h2 : splitChar ',' tag2 with _ | ⟨a2, r2⟩
      · exact absurd h2 (splitCharGo_ne_nil ',' tag2.data)
      · rw [h1, h2] at hsegs
        simpa using (List.cons.injEq _ _ _ _ ▸ hsegs).2
  have haligned : keysAligned (parseTag tag1).2 (parseTag tag2).2 := by
    simp only [parseTag]
    exact keysAligned_foldl (fun k => rfl) htails
  have hcont : ∀ q, optsContains (parseTag tag1).2 q
      = optsContains (parseTag tag2).2 q := by
    intro q
    simp only [optsContains, getOption]
    exact haligned (toLower q)
  refine ⟨hcont, ?_, hcont "value", rfl⟩
  intro cfg
  constructor
  · simp only [resolvedOmitZero, hcont]
  · simp only [resolvedOmitNil, hcont]

/-- Witness for claim C10 at the tags `",OMITZERO"` and `",omitZero"`. -/
theorem claim_C10_witness :
    optsContains (parseTag ",OMITZERO").2 "omitZero"
      = optsContains (parseTag ",omitZero").2 "omitZero" ∧
    optsContains (parseTag ",OMITZERO").2 "omitZero" = true :=
  ⟨(claim_C10 (by decide)).1 "omitZero", by decide⟩

/-- Claim C8, counterexample: a field tagged `",skip"` (no name, only the
`skip` option flag) is not excluded — its key appears in the output mapping
with its value, contradicting "never appears under any key". -/
theorem claim_C8_counterexample :
    Marshal (.tstruct "S" [.mk "A" ",skip" false true .tint])
        (.vstruct [.vint 7])
      = .ok [("A", .vint 7)] := rfl

/-- Claim C8, amended: only the tag name `"-"` excludes a field.  A field
whose parsed tag name is the sentinel `"-"` contributes nothing to any scan
step (no leaf, no queued substructure — hence nothing at any embedding
depth); there is no `skip` option in the engine.  Concretely, a `"-"`-tagged
field is entirely absent from the output while a `",skip"`-tagged one is
present. -/
theorem claim_C8 :
    (∀ (cfg : Config) (f : Field) (cnt : Nat) (acc : ScanAcc) (i : Nat)
      (sf : GoField), (parseTag sf.tag).1 = "-" →
      scanField cfg f cnt acc i sf = acc) ∧
    Marshal (.tstruct "S2" [.mk "A" "" false true .tint,
        .mk "B" "-" false true .tint])
        (.vstruct [.vint 1, .vint 2])
      = .ok [("A", .vint 1)] ∧
    mapGet [("A", GoValue.vint 1)] "B" = none := by
  refine ⟨?_, rfl, rfl⟩
  intro cfg f cnt acc i sf h
  simp [scanField, h]

/-- Witness for claim C8's scan-level conjunct at a concrete `"-"`-tagged
field. -/
theorem claim_C8_witness :
    scanField defaultConfig (emptyField (.tstruct "S" []))
        0 ⟨[], [], []⟩ 0 (.mk "B" "-" false true .tint)
      = ⟨[], [], []⟩ :=
  claim_C8.1 defaultConfig (emptyField (.tstruct "S" [])) 0 ⟨[], [], []⟩ 0
    (.mk "B" "-" false true .tint) rfl

/-- Claim C4, counterexample: an embedded struct field whose tag carries
only an option (`",omitZero"`) has no explicit tag name, yet it is *not*
flattened — it is recorded as a leaf under the field's type name, because
the code tests the whole tag string for emptiness, not the parsed name. -/
theorem claim_C4_counterexample :
    (parseTag ",omitZero").1 = "" ∧
    Marshal (.tstruct "Outer" [.mk "Inner" ",omitZero" true true
        (.tstruct "Inner" [.mk "X" "" false true .tint])])
        (.vstruct [.vstruct [.vint 5]])
      = .ok [("Inner", .vmap [("X", .vint 5)])] ∧
    mapGet [("Inner", GoValue.vmap [("X", GoValue.vint 5)])] "X"
      = none := ⟨rfl, rfl, rfl⟩

/-- The leaf descriptor that `typeFields` records for a declared field
named `n` with tag string `tag` at offset `i` under the queue entry `f`,
with resolved field type `sft`. -/
def leafOf (cfg : Config) (f : Field) (i : Nat) (n tag : String)
    (sft : GoType) : Field :=
  { name := if (parseTag tag).1 = "" then n else (parseTag tag).1,
    tagged := tag ≠ "",
    index := f.index ++ [i],
    typ := sft,
    options := (parseTag tag).2,
    omitZero := resolvedOmitZero cfg (parseTag tag).2,
    omitNil := resolvedOmitNil cfg (parseTag tag).2,
    asValue := optsContains (parseTag tag).2 "value" }

/-- Claim C4, amended: an embedded (anonymous, exported) struct field is
flattened — scheduled for the next breadth level, with no leaf of its own —
if and only if its tag *string* is empty; any tag at all (an explicit name,
or options alone) makes it a single leaf, named by the parsed tag name when
one is present and by the field's own name otherwise.  Concretely, the
untagged embedded `Inner` of `Outer` flattens to `{"X": 5}` with no
`"Inner"` key, and an embedded field tagged `"sub"` becomes a single leaf
`"sub"`. -/
theorem claim_C4 {n tag sn : String} {sfs : List GoField}
    (cfg : Config) (f : Field) (cnt : Nat) (acc : ScanAcc) (i : Nat)
    (hdash : (parseTag tag).1 ≠ "-") :
    (tag = "" →
      (scanField cfg f cnt acc i (.mk n tag true true (.tstruct sn sfs)))
        = { acc with
            next :=
              if countGet acc.nextCount sn + 1 = 1 then
                acc.next ++ [{ emptyField (.tstruct sn sfs) with
                  name := sn, index := f.index ++ [i] }]
              else acc.next,
            nextCount := countSet acc.nextCount sn
              (countGet acc.nextCount sn + 1) }) ∧
    (tag ≠ "" →
      (scanField cfg f cnt acc i (.mk n tag true true (.tstruct sn sfs)))
        = { acc with
            leaves := acc.leaves ++
              (if cnt > 1 then
                [leafOf cfg f i n tag (.tstruct sn sfs),
                 leafOf cfg f i n tag (.tstruct sn sfs)]
              else [leafOf cfg f i n tag (.tstruct sn sfs)]) }) ∧
    Marshal (.tstruct "Outer" [.mk "Inner" "" true true
        (.tstruct "Inner" [.mk "X" "" false true .tint])])
        (.vstruct [.vstruct [.vint 5]])
      = .ok [("X", .vint 5)] ∧
    Marshal (.tstruct "Outer2" [.mk "Inner" "sub" true true
        (.tstruct "Inner" [.mk "X" "" false true .tint])])
        (.vstruct [.vstruct [.vint 5]])
      = .ok [("sub", .vmap [("X", .vint 5)])] := by
  refine ⟨?_, ?_, rfl, rfl⟩
  · intro htag
    subst htag
    by_cases hc : countGet acc.nextCount sn + 1 = 1 <;>
      simp [scanField, GoField.anonymous, GoField.exported, GoField.tag,
        GoField.typ, GoField.name, structKindB, elemType, typeName,
        ptrKindB, hc, show (parseTag "").1 = "" from rfl]
  · intro htag
    by_cases hcnt : cnt > 1 <;>
      simp [scanField, GoField.anonymous, GoField.exported, GoField.tag,
        GoField.typ, GoField.name, structKindB, elemType, typeName,
        ptrKindB, htag, hdash, hcnt, leafOf]

/-- Witness for claim C4 at a concrete embedded struct field, untagged
(first conjunct: queued for flattening) and tagged (second conjunct: a
single leaf). -/
theorem claim_C4_witness :
    (scanField defaultConfig (emptyField (.tstruct "O" [])) 0 ⟨[], [], []⟩
        0 (.mk "Inner" "" true true (.tstruct "I" []))
      = { (⟨[], [], []⟩ : ScanAcc) with
          next := if countGet [] "I" + 1 = 1 then
              [] ++ [{ emptyField (.tstruct "I" []) with
                       name := "I",
                       index := (emptyField (.tstruct "O" [])).index ++ [0] }]
            else [],
          nextCount := countSet [] "I" (countGet [] "I" + 1) }) ∧
    (scanField defaultConfig (emptyField (.tstruct "O" [])) 0 ⟨[], [], []⟩
        0 (.mk "Inner" "sub" true true (.tstruct "I" []))
      = { (⟨[], [], []⟩ : ScanAcc) with
          leaves := [] ++ (if (0 : Nat) > 1 then
              [leafOf defaultConfig (emptyField (.tstruct "O" [])) 0
                "Inner" "sub" (.tstruct "I" []),
               leafOf defaultConfig (emptyField (.tstruct "O" [])) 0
                "Inner" "sub" (.tstruct "I" [])]
            else [leafOf defaultConfig (emptyField (.tstruct "O" [])) 0
                "Inner" "sub" (.tstruct "I" [])]) }) :=
  ⟨(claim_C4 defaultConfig (emptyField (.tstruct "O" [])) 0 ⟨[], [], []⟩ 0
      (by decide)).1 rfl,
   (claim_C4 defaultConfig (emptyField (.tstruct "O" [])) 0 ⟨[], [], []⟩ 0
      (by decide)).2.1 (by decide)⟩

/-- Claim C6, counterexample: two values of the same record type, one
failing in field `FieldX` and one failing in field `FieldY`, both make
`Marshal` return the character-for-character raw override error `"boom"` —
identical errors for failures in different fields, so the returned error
carries no context localizing which field (or path) failed. -/
theorem claim_C6_counterexample :
    Marshal (.tstruct "T" [.mk "FieldX" "" false true (.tmarshaler "MX"),
        .mk "FieldY" "" false true (.tmarshaler "MY")])
        (.vstruct [.vmarshaler (some "boom") .vnull [],
          .vmarshaler none (.vint 1) []])
      = .error "boom" ∧
    Marshal (.tstruct "T" [.mk "FieldX" "" false true (.tmarshaler "MX"),
        .mk "FieldY" "" false true (.tmarshaler "MY")])
        (.vstruct [.vmarshaler none (.vint 1) [],
          .vmarshaler (some "boom") .vnull []])
      = .error "boom" := ⟨rfl, rfl⟩

/-- Claim C6, amended: when a reached field's `MarshalMapValue` returns an
error, the entire top-level `Marshal` call aborts and returns that single
error with a nil mapping (no partial results); the error is propagated
verbatim — not wrapped with any field or path context. -/
theorem claim_C6 {nm : String} {fs : List GoField} {v : GoValue}
    {flds pre post : List Field} {f : Field} {fv : GoValue} {u : GoType}
    {m1 : MapOut} {e : String}
    (ht : typeFields defaultConfig (.tstruct nm fs) = .ok flds)
    (hsplit : flds = pre ++ f :: post)
    (hpre : encodeFieldsList
      (encodeValue defaultConfig (GoType.tstruct nm fs).size)
      (.tstruct nm fs) v pre [] = .ok m1)
    (hfi : fieldByIndex v f.index = some fv)
    (hskip : omitSkip f fv = false)
    (hval : optsContains f.options "value" = false)
    (hty : typeByIndex (.tstruct nm fs) f.index = some u)
    (himp : implementsMarshaler u = true)
    (herr : encodeMarshaller fv = .error e) :
    marshal defaultConfig (.tstruct nm fs) v = .error e := by
  rw [marshal_tstruct, ht, hsplit]
  dsimp only
  rw [encodeFieldsList_append, hpre]
  dsimp only
  simp only [encodeFieldsList, hfi]
  rw [if_neg (by simp [hskip])]
  have hfe : fieldEnc (encodeValue defaultConfig (GoType.tstruct nm fs).size)
      (.tstruct nm fs) f fv = .error e := by
    simp only [fieldEnc, hval, hty]
    rw [if_neg (by simp)]
    rw [encodeValue_marshaler himp (size_pos _)]
    exact herr
  rw [hfe]

/-- Witness for claim C6: a single-field record whose field's override
fails with `"boom"`; `Marshal` returns exactly `.error "boom"`. -/
theorem claim_C6_witness :
    marshal defaultConfig
        (.tstruct "T1" [.mk "FX" "" false true (.tmarshaler "M")])
        (.vstruct [.vmarshaler (some "boom") .vnull []])
      = .error "boom" :=
  claim_C6
    (show typeFields defaultConfig
        (.tstruct "T1" [.mk "FX" "" false true (.tmarshaler "M")])
      = .ok [{ name := "FX", tagged := false, index := [0],
               typ := .tmarshaler "M", options := [], omitZero := false,
               omitNil := false, asValue := false }] from rfl)
    (show _ = [] ++ _ :: [] from rfl)
    rfl rfl rfl rfl rfl rfl rfl

/-- A same-depth, equally-explicit collision makes `resolveGroup` panic:
either two tagged candidates at the minimal depth, or no tagged candidate
and at least two minimal-depth candidates. -/
theorem resolveGroup_error_of_ambiguous {tname : String} {g0 : Field}
    {tl : List Field}
    (hcond : 2 ≤ (((g0 :: tl).takeWhile
        (fun f => decide (f.index.length ≤ g0.index.length))).filter
        (·.tagged)).length ∨
      (((g0 :: tl).takeWhile
        (fun f => decide (f.index.length ≤ g0.index.length))).filter
        (·.tagged) = [] ∧
       2 ≤ ((g0 :: tl).takeWhile
        (fun f => decide (f.index.length ≤ g0.index.length))).length)) :
    ∃ e, resolveGroup tname (g0 :: tl) = .error e := by
  unfold resolveGroup
  dsimp only
  rcases hf : ((g0 :: tl).takeWhile
      (fun f => decide (f.index.length ≤ g0.index.length))).filter
      (·.tagged) with _ | ⟨w1, ws⟩
  · rcases hcond with hcond | hcond
    · rw [hf] at hcond; simp at hcond
    · refine ⟨ambiguousMsg g0.name tname, ?_⟩
      rw [hf]
      dsimp only
      obtain ⟨-, hlen⟩ := hcond
      split_ifs with h
      · rfl
      · omega
  · cases ws with
    | nil =>
        rcases hcond with hcond | hcond
        · rw [hf] at hcond; simp at hcond
        · obtain ⟨hc1, -⟩ := hcond
          rw [hf] at hc1
          simp at hc1
    | cons w2 ws' =>
        exact ⟨ambiguousMsg w2.name tname, by rw [hf]⟩

/-- An erroring contention group makes the whole `typeFields` computation
fail. -/
theorem typeFields_error_of_group {cfg : Config} {t : GoType}
    {grp : List Field} {e : String}
    (hg : grp ∈ groupRuns (sortFields fieldLess (collectFields cfg t)))
    (he : resolveGroup (typeName t) grp = .error e) :
    ∃ e', typeFields cfg t = .error e' := by
  rcases resolveAll_error_of_group hg he with ⟨e', he'⟩
  refine ⟨e', ?_⟩
  simp [typeFields, annihilate, he']

/-- `marshalCached` on a plain (non-`Marshaler`) struct type: after the
struct-kind screen comes the cache lookup, then the install with its
possible `typeFields` panic, then encoding proper. -/
theorem marshalCached_tstruct (cfg : Config) (pending : List GoType)
    (nm : String) (fs : List GoField) (v : GoValue) :
    marshalCached cfg pending (.tstruct nm fs) v =
      if pendingHas pending (.tstruct nm fs) then (.hang, pending)
      else
        match typeFields cfg (.tstruct nm fs) with
        | .error e => (.err e, .tstruct nm fs :: pending)
        | .ok _ =>
            match marshal cfg (.tstruct nm fs) v with
            | .error e => (.err e, pending)
            | .ok m => (.ok m, pending) := rfl

/-- Claim C7, refuted on its repeated-call half: when field resolution of
a record type fails with a shape error, the FIRST `Marshal` call (cold
cache) does return that error synchronously and deterministically — but
it leaves the type's never-completed indirect `encodeFn` in
`encodeFnCache` (the `typeFields` panic unwinds out of `lookupEncodeFn`
before `wg.Done()` and the final `Store`), so the SECOND call on the same
type Load-hits that entry and blocks forever in `wg.Wait()`: a hang, not
the same error again. -/
theorem claim_C7 {cfg : Config} {nm : String} {fs : List GoField}
    {e : String}
    (ht : typeFields cfg (.tstruct nm fs) = .error e) :
    ∀ v1 v2 : GoValue,
      marshalCached cfg [] (.tstruct nm fs) v1
        = (.err e, [.tstruct nm fs]) ∧
      marshalCached cfg [.tstruct nm fs] (.tstruct nm fs) v2
        = (.hang, [.tstruct nm fs]) ∧
      marshal cfg (.tstruct nm fs) v1 = .error e := by
  intro v1 v2
  refine ⟨?_, ?_, marshal_error_of_typeFields_error ht v1⟩
  · rw [marshalCached_tstruct, ht]
    rfl
  · rw [marshalCached_tstruct]
    rw [if_pos (show pendingHas [.tstruct nm fs] (.tstruct nm fs) = true
      by simp [pendingHas, GoType.beq_refl])]

/-- Witness for claim C7 on the concrete ambiguous type `Amb` (two
embedded substructures declaring `Y` at the same depth, neither tagged):
the first cached call returns the ambiguity error and strands the key,
the next call on the same type hangs. -/
theorem claim_C7_witness :
    marshalCached defaultConfig []
        (.tstruct "Amb" [.mk "P" "" true true (.tstruct "P"
            [.mk "Y" "" false true .tint]),
          .mk "Q" "" true true (.tstruct "Q"
            [.mk "Y" "" false true .tint])])
        (.vstruct [.vstruct [.vint 1], .vstruct [.vint 2]])
      = (.err (ambiguousMsg "Y" "Amb"),
         [.tstruct "Amb" [.mk "P" "" true true (.tstruct "P"
            [.mk "Y" "" false true .tint]),
          .mk "Q" "" true true (.tstruct "Q"
            [.mk "Y" "" false true .tint])]]) ∧
    marshalCached defaultConfig
        [.tstruct "Amb" [.mk "P" "" true true (.tstruct "P"
            [.mk "Y" "" false true .tint]),
          .mk "Q" "" true true (.tstruct "Q"
            [.mk "Y" "" false true .tint])]]
        (.tstruct "Amb" [.mk "P" "" true true (.tstruct "P"
            [.mk "Y" "" false true .tint]),
          .mk "Q" "" true true (.tstruct "Q"
            [.mk "Y" "" false true .tint])])
        (.vstruct [.vstruct [.vint 3], .vstruct [.vint 4]])
      = (.hang,
         [.tstruct "Amb" [.mk "P" "" true true (.tstruct "P"
            [.mk "Y" "" false true .tint]),
          .mk "Q" "" true true (.tstruct "Q"
            [.mk "Y" "" false true .tint])]]) ∧
    marshal defaultConfig
        (.tstruct "Amb" [.mk "P" "" true true (.tstruct "P"
            [.mk "Y" "" false true .tint]),
          .mk "Q" "" true true (.tstruct "Q"
            [.mk "Y" "" false true .tint])])
        (.vstruct [.vstruct [.vint 1], .vstruct [.vint 2]])
      = .error (ambiguousMsg "Y" "Amb") :=
  claim_C7
    (show typeFields defaultConfig
        (.tstruct "Amb" [.mk "P" "" true true (.tstruct "P"
            [.mk "Y" "" false true .tint]),
          .mk "Q" "" true true (.tstruct "Q"
            [.mk "Y" "" false true .tint])])
      = .error (ambiguousMsg "Y" "Amb") from rfl)
    (.vstruct [.vstruct [.vint 1], .vstruct [.vint 2]])
    (.vstruct [.vstruct [.vint 3], .vstruct [.vint 4]])

/-- Claim C1: (i) whenever a contention group of the sorted candidate list
for a record type has, at the minimal index depth (the truncation to
candidates no deeper than the group's first entry), either two or more
tagged candidates or no tagged candidate but two or more candidates, then
`marshal` on every value of that type fails with an error and returns no
mapping; (ii) when exactly one minimal-depth candidate is tagged, that
candidate is the group's resolution (it wins) and it is indeed tagged;
(iii) concretely, a root embedding two substructures that both declare `Y`
at the same depth with exactly one carrying an explicit `map:"Y"` tag
marshals without error, to the tagged field's value. -/
theorem claim_C1 :
    (∀ (cfg : Config) (nm : String) (fs : List GoField) (g0 : Field)
      (tl : List Field),
      g0 :: tl ∈ groupRuns (sortFields fieldLess
        (collectFields cfg (.tstruct nm fs))) →
      (2 ≤ (((g0 :: tl).takeWhile
          (fun f => decide (f.index.length ≤ g0.index.length))).filter
          (·.tagged)).length ∨
        (((g0 :: tl).takeWhile
          (fun f => decide (f.index.length ≤ g0.index.length))).filter
          (·.tagged) = [] ∧
         2 ≤ ((g0 :: tl).takeWhile
          (fun f => decide (f.index.length ≤ g0.index.length))).length)) →
      ∀ v : GoValue, ∃ e, marshal cfg (.tstruct nm fs) v = .error e) ∧
    (∀ (tname : String) (g0 : Field) (tl : List Field) (w : Field),
      ((g0 :: tl).takeWhile
        (fun f => decide (f.index.length ≤ g0.index.length))).filter
        (·.tagged) = [w] →
      resolveGroup tname (g0 :: tl) = .ok w ∧ w.tagged = true) ∧
    Marshal (.tstruct "R" [.mk "P" "" true true (.tstruct "P"
        [.mk "Y" "" false true .tint]),
      .mk "Q" "" true true (.tstruct "Q"
        [.mk "Y" "Y" false true .tint])])
      (.vstruct [.vstruct [.vint 1], .vstruct [.vint 2]])
      = .ok [("Y", .vint 2)] := by
  refine ⟨?_, ?_, rfl⟩
  · intro cfg nm fs g0 tl hg hcond v
    rcases @resolveGroup_error_of_ambiguous
      (typeName (.tstruct nm fs)) g0 tl hcond with ⟨e, he⟩
    rcases typeFields_error_of_group hg he with ⟨e', he'⟩
    exact ⟨e', marshal_error_of_typeFields_error he' v⟩
  · intro tname g0 tl w hf
    constructor
    · unfold resolveGroup
      dsimp only
      rw [hf]
    · have hw : w ∈ ((g0 :: tl).takeWhile
          (fun f => decide (f.index.length ≤ g0.index.length))).filter
          (·.tagged) := by
        rw [hf]; exact List.mem_cons_self _ _
      simpa using (List.mem_filter.mp hw).2

/-- Witness for claim C1: part (i) applied to the concrete ambiguous type
`Amb` (both `Y` candidates untagged at depth two), and part (ii) applied to
the concrete contention group of type `R` whose tagged `Y` candidate wins. -/
theorem claim_C1_witness :
    (∃ e, marshal defaultConfig
        (.tstruct "Amb" [.mk "P" "" true true (.tstruct "P"
            [.mk "Y" "" false true .tint]),
          .mk "Q" "" true true (.tstruct "Q"
            [.mk "Y" "" false true .tint])])
        (.vstruct [.vstruct [.vint 1], .vstruct [.vint 2]])
      = .error e) ∧
    (resolveGroup "R"
        [{ name := "Y", tagged := true, index := [1, 0], typ := .tint,
           options := [], omitZero := false, omitNil := false,
           asValue := false },
         { name := "Y", tagged := false, index := [0, 0], typ := .tint,
           options := [], omitZero := false, omitNil := false,
           asValue := false }]
      = .ok { name := "Y", tagged := true, index := [1, 0], typ := .tint,
              options := [], omitZero := false, omitNil := false,
              asValue := false } ∧
      ({ name := "Y", tagged := true, index := [1, 0], typ := .tint,
         options := [], omitZero := false, omitNil := false,
         asValue := false } : Field).tagged = true) :=
  ⟨claim_C1.1 defaultConfig "Amb"
      [.mk "P" "" true true (.tstruct "P" [.mk "Y" "" false true .tint]),
       .mk "Q" "" true true (.tstruct "Q" [.mk "Y" "" false true .tint])]
      { name := "Y", tagged := false, index := [0, 0], typ := .tint,
        options := [], omitZero := false, omitNil := false,
        asValue := false }
      [{ name := "Y", tagged := false, index := [1, 0], typ := .tint,
         options := [], omitZero := false, omitNil := false,
         asValue := false }]
      (List.mem_cons_self _ _)
      (Or.inr ⟨rfl, by decide⟩)
      (.vstruct [.vstruct [.vint 1], .vstruct [.vint 2]]),
   claim_C1.2.1 "R"
      { name := "Y", tagged := true, index := [1, 0], typ := .tint,
        options := [], omitZero := false, omitNil := false,
        asValue := false }
      [{ name := "Y", tagged := false, index := [0, 0], typ := .tint,
         options := [], omitZero := false, omitNil := false,
         asValue := false }]
      { name := "Y", tagged := true, index := [1, 0], typ := .tint,
        options := [], omitZero := false, omitNil := false,
        asValue := false }
      rfl⟩

/-! ## Order properties of the sort comparator

`fieldLess` is a strict weak order (asymmetric and co-transitive), so the
insertion sort really sorts, same-named candidates end up adjacent, and
the annihilated descriptor list carries pairwise-distinct names. -/

theorem charListLess_asymm :
    ∀ {l r : List Char}, charListLess l r = true →
      charListLess r l = false := by
  intro l
  induction l with
  | nil =>
      intro r h
      cases r with
      | nil => simp [charListLess] at h
      | cons b r => simp [charListLess]
  | cons a l ih =>
      intro r h
      cases r with
      | nil => simp [charListLess] at h
      | cons b r =>
          simp only [charListLess] at h ⊢
          by_cases hab : a = b
          · subst hab
            rw [if_pos rfl] at h
            rw [if_pos rfl]
            exact ih h
          · rw [if_neg hab, decide_eq_true_eq] at h
            rw [if_neg (fun h' : b = a => hab h'.symm),
              decide_eq_false_iff_not]
            exact lt_asymm h

theorem charListLess_cotrans :
    ∀ {l m r : List Char}, charListLess l r = true →
      charListLess l m = true ∨ charListLess m r = true := by
  intro l
  induction l with
  | nil =>
      intro m r h
      cases m with
      | nil => exact Or.inr h
      | cons b m => exact Or.inl (by simp [charListLess])
  | cons a l ih =>
      intro m r h
      cases r with
      | nil => simp [charListLess] at h
      | cons c r =>
          cases m with
          | nil => exact Or.inr (by simp [charListLess])
          | cons b m =>
              simp only [charListLess] at h ⊢
              by_cases hac : a = c
              · subst hac
                rw [if_pos rfl] at h
                by_cases hab : a = b
                · subst hab
                  rw [if_pos rfl, if_pos rfl]
                  exact ih h
                · rw [if_neg hab,
                    if_neg (fun h' : b = a => hab h'.symm)]
                  rcases lt_or_gt_of_ne hab with h1 | h1
                  · exact Or.inl (decide_eq_true h1)
                  · exact Or.inr (decide_eq_true h1)
              · rw [if_neg hac, decide_eq_true_eq] at h
                by_cases hab : a = b
                · subst hab
                  refine Or.inr ?_
                  rw [if_neg hac]
                  exact decide_eq_true h
                · by_cases hbc : b = c
                  · subst hbc
                    refine Or.inl ?_
                    rw [if_neg hab]
                    exact decide_eq_true h
                  · rcases lt_or_le a b with h1 | h1
                    · refine Or.inl ?_
                      rw [if_neg hab]
                      exact decide_eq_true h1
                    · refine Or.inr ?_
                      rw [if_neg hbc]
                      exact decide_eq_true (lt_of_le_of_lt h1 h)

theorem charListLess_connex :
    ∀ {l r : List Char}, l ≠ r →
      charListLess l r = true ∨ charListLess r l = true := by
  intro l
  induction l with
  | nil =>
      intro r h
      cases r with
      | nil => exact absurd rfl h
      | cons b r => exact Or.inl (by simp [charListLess])
  | cons a l ih =>
      intro r h
      cases r with
      | nil => exact Or.inr (by simp [charListLess])
      | cons b r =>
          simp only [charListLess]
          by_cases hab : a = b
          · subst hab
            rw [if_pos rfl, if_pos rfl]
            exact ih (fun he => h (by rw [he]))
          · rw [if_neg hab, if_neg (fun h' : b = a => hab h'.symm)]
            rcases lt_or_gt_of_ne hab with h1 | h1
            · exact Or.inl (decide_eq_true h1)
            · exact Or.inr (decide_eq_true h1)

theorem strLess_asymm {s t : String} (h : strLess s t = true) :
    strLess t s = false :=
  charListLess_asymm h

theorem strLess_cotrans {s m t : String} (h : strLess s t = true) :
    strLess s m = true ∨ strLess m t = true :=
  charListLess_cotrans h

theorem strLess_connex {s t : String} (h : s ≠ t) :
    strLess s t = true ∨ strLess t s = true := by
  refine charListLess_connex ?_
  intro hd
  exact h (by cases s; cases t; simp only at hd; rw [hd])

theorem indexLess_asymm :
    ∀ {l r : List Nat}, indexLess l r = true → indexLess r l = false := by
  intro l
  induction l with
  | nil =>
      intro r h
      cases r with
      | nil => simp [indexLess] at h
      | cons b r => simp [indexLess]
  | cons a l ih =>
      intro r h
      cases r with
      | nil => simp [indexLess] at h
      | cons b r =>
          simp only [indexLess] at h ⊢
          by_cases hab : a = b
          · subst hab
            rw [if_neg (fun hc : a ≠ a => hc rfl)] at h
            rw [if_neg (fun hc : a ≠ a => hc rfl)]
            exact ih h
          · rw [if_pos hab, decide_eq_true_eq] at h
            rw [if_pos (fun h' : b = a => hab h'.symm),
              decide_eq_false_iff_not]
            omega

theorem indexLess_cotrans :
    ∀ {l m r : List Nat}, indexLess l r = true →
      indexLess l m = true ∨ indexLess m r = true := by
  intro l
  induction l with
  | nil =>
      intro m r h
      cases m with
      | nil => exact Or.inr h
      | cons b m => exact Or.inl (by simp [indexLess])
  | cons a l ih =>
      intro m r h
      cases r with
      | nil => simp [indexLess] at h
      | cons c r =>
          cases m with
          | nil => exact Or.inr (by simp [indexLess])
          | cons b m =>
              simp only [indexLess] at h ⊢
              by_cases hac : a = c
              · subst hac
                rw [if_neg (fun hc : a ≠ a => hc rfl)] at h
                by_cases hab : a = b
                · subst hab
                  rw [if_neg (fun hc : a ≠ a => hc rfl),
                    if_neg (fun hc : a ≠ a => hc rfl)]
                  exact ih h
                · rw [if_pos hab,
                    if_pos (fun h' : b = a => hab h'.symm)]
                  rcases Nat.lt_or_ge a b with h1 | h1
                  · exact Or.inl (decide_eq_true h1)
                  · exact Or.inr (decide_eq_true (by omega))
              · rw [if_pos hac, decide_eq_true_eq] at h
                by_cases hab : a = b
                · subst hab
                  refine Or.inr ?_
                  rw [if_pos hac]
                  exact decide_eq_true h
                · by_cases hbc : b = c
                  · subst hbc
                    refine Or.inl ?_
                    rw [if_pos hab]
                    exact decide_eq_true h
                  · rcases Nat.lt_or_ge a b with h1 | h1
                    · refine Or.inl ?_
                      rw [if_pos hab]
                      exact decide_eq_true h1
                    · refine Or.inr ?_
                      rw [if_pos hbc]
                      exact decide_eq_true (by omega)

theorem fieldLess_asymm {a b : Field} (h : fieldLess a b = true) :
    fieldLess b a = false := by
  unfold fieldLess at h ⊢
  by_cases hn : a.name = b.name
  · rw [if_neg (by simp [hn])] at h
    rw [if_neg (by simp [hn])]
    by_cases hl : a.index.length = b.index.length
    · rw [if_neg (by simp [hl])] at h
      rw [if_neg (by simp [hl])]
      by_cases ht : a.tagged = b.tagged
      · rw [if_neg (by simp [ht])] at h
        rw [if_neg (by simp [ht])]
        exact indexLess_asymm h
      · rw [if_pos ht] at h
        rw [if_pos (fun hc : b.tagged = a.tagged => ht hc.symm)]
        cases hb : b.tagged
        · rfl
        · exact absurd (h.trans hb.symm) ht
    · rw [if_pos hl, decide_eq_true_eq] at h
      rw [if_pos (fun hc : b.index.length = a.index.length => hl hc.symm),
        decide_eq_false_iff_not]
      omega
  · rw [if_pos hn] at h
    rw [if_pos (fun hc : b.name = a.name => hn hc.symm)]
    exact strLess_asymm h

theorem fieldLess_cotrans {c b a : Field} (h : fieldLess c a = true) :
    fieldLess c b = true ∨ fieldLess b a = true := by
  unfold fieldLess at h ⊢
  by_cases hca : c.name = a.name
  · rw [if_neg (fun hc : c.name ≠ a.name => hc hca)] at h
    by_cases hcb : c.name = b.name
    · have hba : b.name = a.name := hcb.symm.trans hca
      rw [if_neg (fun hc : c.name ≠ b.name => hc hcb),
        if_neg (fun hc : b.name ≠ a.name => hc hba)]
      by_cases hla : c.index.length = a.index.length
      · rw [if_neg
          (fun hc : c.index.length ≠ a.index.length => hc hla)] at h
        by_cases hlb : c.index.length = b.index.length
        · have hlba : b.index.length = a.index.length := hlb.symm.trans hla
          rw [if_neg (fun hc : c.index.length ≠ b.index.length => hc hlb),
            if_neg (fun hc : b.index.length ≠ a.index.length => hc hlba)]
          by_cases hta : c.tagged = a.tagged
          · rw [if_neg (fun hc : c.tagged ≠ a.tagged => hc hta)] at h
            by_cases htb : c.tagged = b.tagged
            · have htba : b.tagged = a.tagged := htb.symm.trans hta
              rw [if_neg (fun hc : c.tagged ≠ b.tagged => hc htb),
                if_neg (fun hc : b.tagged ≠ a.tagged => hc htba)]
              exact indexLess_cotrans h
            · cases hcv : c.tagged
              · refine Or.inr ?_
                have hbv : b.tagged = true := by
                  cases hbb : b.tagged
                  · exact absurd (hcv.trans hbb.symm) htb
                  · rfl
                have hav : a.tagged = false := hta.symm.trans hcv
                have hne : b.tagged ≠ a.tagged := by
                  rw [hbv, hav]
                  decide
                rw [if_pos hne]
                exact hbv
              · refine Or.inl ?_
                have hbv : b.tagged = false := by
                  cases hbb : b.tagged
                  · rfl
                  · exact absurd (hcv.trans hbb.symm) htb
                have hne : (true : Bool) ≠ b.tagged := by
                  rw [hbv]
                  decide
                rw [if_pos hne]
          · rw [if_pos hta] at h
            have hav : a.tagged = false := by
              cases haa : a.tagged
              · rfl
              · exact absurd (h.trans haa.symm) hta
            by_cases htb : c.tagged = b.tagged
            · refine Or.inr ?_
              have hbv : b.tagged = true := htb.symm.trans h
              have hne : b.tagged ≠ a.tagged := by
                rw [hbv, hav]
                decide
              rw [if_pos hne]
              exact hbv
            · refine Or.inl ?_
              rw [if_pos htb]
              exact h
        · rcases Nat.lt_or_ge c.index.length b.index.length with h1 | h1
          · refine Or.inl ?_
            rw [if_pos hlb, decide_eq_true_eq]
            exact h1
          · refine Or.inr ?_
            have hne : b.index.length ≠ a.index.length :=
              fun he => hlb (hla.trans he.symm)
            rw [if_pos hne, decide_eq_true_eq]
            omega
      · rw [if_pos hla, decide_eq_true_eq] at h
        by_cases hlb : c.index.length = b.index.length
        · refine Or.inr ?_
          have hne : b.index.length ≠ a.index.length :=
            fun he => hla (hlb.trans he)
          rw [if_pos hne, decide_eq_true_eq]
          omega
        · by_cases hlba : b.index.length = a.index.length
          · refine Or.inl ?_
            rw [if_pos hlb, decide_eq_true_eq]
            omega
          · rcases Nat.lt_or_ge c.index.length b.index.length with h1 | h1
            · refine Or.inl ?_
              rw [if_pos hlb, decide_eq_true_eq]
              exact h1
            · refine Or.inr ?_
              rw [if_pos hlba, decide_eq_true_eq]
              omega
    · have hba : b.name ≠ a.name := fun he => hcb (hca.trans he.symm)
      rcases @strLess_connex c.name b.name hcb with h1 | h1
      · refine Or.inl ?_
        rw [if_pos hcb]
        exact h1
      · refine Or.inr ?_
        rw [if_pos hba, ← hca]
        exact h1
  · rw [if_pos hca] at h
    by_cases hcb : c.name = b.name
    · refine Or.inr ?_
      have hba : b.name ≠ a.name := fun he => hca (hcb.trans he)
      rw [if_pos hba, ← hcb]
      exact h
    · by_cases hba : b.name = a.name
      · refine Or.inl ?_
        rw [if_pos hcb, hba]
        exact h
      · rcases @strLess_cotrans c.name b.name a.name h with h1 | h1
        · refine Or.inl ?_
          rw [if_pos hcb]
          exact h1
        · refine Or.inr ?_
          rw [if_pos hba]
          exact h1

theorem fieldLess_false_name {x y : Field} (h : fieldLess y x = false) :
    x.name = y.name ∨ strLess x.name y.name = true := by
  unfold fieldLess at h
  by_cases hn : y.name = x.name
  · exact Or.inl hn.symm
  · rw [if_pos hn] at h
    rcases strLess_connex (fun he : x.name = y.name => hn he.symm)
      with h1 | h1
    · exact Or.inr h1
    · rw [h1] at h
      exact absurd h (by simp)

theorem sortInsert_pairwise {a : Field} {l : List Field}
    (hp : l.Pairwise (fun x y => fieldLess y x = false)) :
    (sortInsert fieldLess a l).Pairwise
      (fun x y => fieldLess y x = false) := by
  induction l with
  | nil => simp [sortInsert]
  | cons b l ih =>
      rcases List.pairwise_cons.mp hp with ⟨hb, hl⟩
      simp only [sortInsert]
      by_cases hba : fieldLess b a = true
      · rw [if_pos hba]
        refine List.pairwise_cons.mpr ⟨?_, ih hl⟩
        intro x hx
        rcases mem_sortInsert hx with hx1 | hx1
        · subst hx1
          exact fieldLess_asymm hba
        · exact hb x hx1
      · rw [if_neg hba]
        rw [Bool.not_eq_true] at hba
        refine List.pairwise_cons.mpr ⟨?_, hp⟩
        intro x hx
        rcases List.mem_cons.mp hx with hx1 | hx1
        · subst hx1
          exact hba
        · rcases Bool.eq_false_or_eq_true (fieldLess x a) with hfx | hfx
          · rcases @fieldLess_cotrans x b a hfx with h1 | h1
            · exact absurd h1 (by rw [hb x hx1]; decide)
            · exact absurd h1 (by rw [hba]; decide)
          · exact hfx

theorem sortFields_pairwise (l : List Field) :
    (sortFields fieldLess l).Pairwise
      (fun x y => fieldLess y x = false) := by
  induction l with
  | nil => simp [sortFields]
  | cons a l ih =>
      simp only [sortFields]
      exact sortInsert_pairwise ih

theorem sortInsert_perm (less : Field → Field → Bool) (a : Field)
    (l : List Field) : List.Perm (sortInsert less a l) (a :: l) := by
  induction l with
  | nil => exact List.Perm.refl _
  | cons b l ih =>
      simp only [sortInsert]
      by_cases hba : less b a = true
      · rw [if_pos hba]
        exact (ih.cons b).trans (List.Perm.swap a b l)
      · rw [if_neg hba]

theorem sortFields_perm (less : Field → Field → Bool) (l : List Field) :
    List.Perm (sortFields less l) l := by
  induction l with
  | nil => exact List.Perm.refl _
  | cons a l ih =>
      simp only [sortFields]
      exact (sortInsert_perm less a (sortFields less l)).trans (ih.cons a)

/-- The shared name of a contention group (its first candidate's name). -/
def headName : List Field → String
  | [] => ""
  | f :: _ => f.name

theorem groupRuns_ne_nil {l g : List Field} (hg : g ∈ groupRuns l) :
    g ≠ [] := by
  induction l generalizing g with
  | nil => simp [groupRuns] at hg
  | cons f rest ih =>
      simp only [groupRuns] at hg
      rcases hgr : groupRuns rest with _ | ⟨g1, gs⟩
      · rw [hgr] at hg
        simp only [List.mem_singleton] at hg
        subst hg
        simp
      · rw [hgr] at hg
        cases g1 with
        | nil =>
            have h0 : ([] : List Field) ∈ groupRuns rest := by
              rw [hgr]
              exact List.mem_cons_self _ _
            exact absurd rfl (ih h0)
        | cons h1 g1 =>
            dsimp only at hg
            by_cases hn : f.name = h1.name
            · rw [if_pos hn] at hg
              rcases List.mem_cons.mp hg with h | h
              · subst h
                simp
              · refine ih ?_
                rw [hgr]
                exact List.mem_cons_of_mem _ h
            · rw [if_neg hn] at hg
              rcases List.mem_cons.mp hg with h | h
              · subst h
                simp
              · refine ih ?_
                rw [hgr]
                exact h

theorem groupRuns_head_name {l : List Field} :
    ∀ g ∈ groupRuns l, ∀ x ∈ g, x.name = headName g := by
  induction l with
  | nil => simp [groupRuns]
  | cons f rest ih =>
      intro g hg x hx
      simp only [groupRuns] at hg
      rcases hgr : groupRuns rest with _ | ⟨g1, gs⟩
      · rw [hgr] at hg
        simp only [List.mem_singleton] at hg
        subst hg
        simp only [List.mem_singleton] at hx
        subst hx
        rfl
      · rw [hgr] at hg
        cases g1 with
        | nil =>
            have h0 : ([] : List Field) ∈ groupRuns rest := by
              rw [hgr]
              exact List.mem_cons_self _ _
            exact absurd rfl (groupRuns_ne_nil h0)
        | cons h1 g1 =>
            dsimp only at hg
            have hrest : h1 :: g1 ∈ groupRuns rest := by
              rw [hgr]
              exact List.mem_cons_self _ _
            by_cases hn : f.name = h1.name
            · rw [if_pos hn] at hg
              rcases List.mem_cons.mp hg with h | h
              · subst h
                rcases List.mem_cons.mp hx with h2 | h2
                · subst h2
                  rfl
                · exact (ih (h1 :: g1) hrest x h2).trans hn.symm
              · exact ih g (by rw [hgr]; exact List.mem_cons_of_mem _ h)
                  x hx
            · rw [if_neg hn] at hg
              rcases List.mem_cons.mp hg with h | h
              · subst h
                simp only [List.mem_singleton] at hx
                subst hx
                rfl
              · exact ih g (by rw [hgr]; exact h) x hx

theorem groupRuns_heads_nodup {l : List Field}
    (hp : l.Pairwise (fun x y => fieldLess y x = false)) :
    ((groupRuns l).map headName).Nodup := by
  induction l with
  | nil => simp [groupRuns]
  | cons f rest ih =>
      rcases List.pairwise_cons.mp hp with ⟨hf, hrestp⟩
      simp only [groupRuns]
      rcases hgr : groupRuns rest with _ | ⟨g1, gs⟩
      · simp
      · cases g1 with
        | nil =>
            have h0 : ([] : List Field) ∈ groupRuns rest := by
              rw [hgr]
              exact List.mem_cons_self _ _
            exact absurd rfl (groupRuns_ne_nil h0)
        | cons h1 g1 =>
            dsimp only
            have ihr := ih hrestp
            rw [hgr] at ihr
            have hjoin : rest = h1 :: (g1 ++ gs.flatten) := by
              have hj := groupRuns_join rest
              rw [hgr] at hj
              simpa using hj.symm
            have hh1mem : h1 ∈ rest := by
              rw [hjoin]
              exact List.mem_cons_self _ _
            by_cases hn : f.name = h1.name
            · rw [if_pos hn]
              simp only [List.map_cons] at ihr ⊢
              rcases List.nodup_cons.mp ihr with ⟨hnotin, hnd⟩
              refine List.nodup_cons.mpr ⟨?_, hnd⟩
              show f.name ∉ List.map headName gs
              rw [hn]
              exact hnotin
            · rw [if_neg hn]
              simp only [List.map_cons] at ihr ⊢
              refine List.nodup_cons.mpr ⟨?_, ihr⟩
              show f.name ∉ headName (h1 :: g1) :: List.map headName gs
              intro hmem
              rcases List.mem_cons.mp hmem with he | he
              · exact hn he
              · rcases List.mem_map.mp he with ⟨g, hgmem, hghead⟩
                have hgmem' : g ∈ groupRuns rest := by
                  rw [hgr]
                  exact List.mem_cons_of_mem _ hgmem
                have hgne : g ≠ [] := groupRuns_ne_nil hgmem'
                cases g with
                | nil => exact hgne rfl
                | cons z g' =>
                    have hz : z.name = f.name := hghead
                    have hzrest : z ∈ g1 ++ gs.flatten := by
                      refine List.mem_append_right _ ?_
                      exact List.mem_flatten.mpr
                        ⟨z :: g', hgmem, List.mem_cons_self _ _⟩
                    rw [hjoin] at hrestp
                    rcases List.pairwise_cons.mp hrestp with ⟨hh1, -⟩
                    have hzh1 : fieldLess z h1 = false := hh1 z hzrest
                    have hh1f : fieldLess h1 f = false := hf h1 hh1mem
                    rcases fieldLess_false_name hzh1 with h2 | h2
                    · exact hn (hz ▸ h2).symm
                    · rcases fieldLess_false_name hh1f with h3 | h3
                      · exact hn h3
                      · rw [hz] at h2
                        rw [strLess_asymm h3] at h2
                        exact absurd h2 (by simp)

theorem resolveAll_names {tname : String} {gs : List (List Field)}
    {ws : List Field} (h : resolveAll tname gs = .ok ws)
    (hne : ∀ g ∈ gs, g ≠ [])
    (hco : ∀ g ∈ gs, ∀ x ∈ g, x.name = headName g) :
    ws.map Field.name = gs.map headName := by
  induction gs generalizing ws with
  | nil =>
      simp only [resolveAll] at h
      cases h
      rfl
  | cons g gs ih =>
      simp only [resolveAll] at h
      rcases hg : resolveGroup tname g with e | w
      · rw [hg] at h
        simp at h
      · rw [hg] at h
        dsimp only at h
        rcases ha : resolveAll tname gs with e | ws2
        · rw [ha] at h
          simp at h
        · rw [ha] at h
          dsimp only at h
          have hws : ws = w :: ws2 := by
            injection h with h2
            exact h2.symm
          subst hws
          simp only [List.map_cons]
          have hwname : w.name = headName g :=
            hco g (List.mem_cons_self _ _) w (resolveGroup_mem hg)
          rw [hwname]
          congr 1
          exact ih ha
            (fun g2 hg2 => hne g2 (List.mem_cons_of_mem _ hg2))
            (fun g2 hg2 => hco g2 (List.mem_cons_of_mem _ hg2))

/-- The annihilation pass leaves at most one descriptor per field name:
the surviving descriptors of `typeFields` carry pairwise distinct names. -/
theorem typeFields_names_nodup {cfg : Config} {t : GoType}
    {flds : List Field} (h : typeFields cfg t = .ok flds) :
    (flds.map Field.name).Nodup := by
  simp only [typeFields] at h
  rcases ha : annihilate (typeName t)
      (sortFields fieldLess (collectFields cfg t)) with e | out
  · rw [ha] at h
    simp at h
  · rw [ha] at h
    dsimp only at h
    have hflds : flds = sortFields
        (fun l r => indexLess l.index r.index) out := by
      injection h with h2
      exact h2.symm
    have hra : resolveAll (typeName t)
        (groupRuns (sortFields fieldLess (collectFields cfg t))) =
          .ok out := ha
    have hnames : out.map Field.name =
        (groupRuns (sortFields fieldLess (collectFields cfg t))).map
          headName :=
      resolveAll_names hra (fun g hg => groupRuns_ne_nil hg)
        (fun g hg x hx => groupRuns_head_name g hg x hx)
    have hnodup : (out.map Field.name).Nodup := by
      rw [hnames]
      exact groupRuns_heads_nodup (sortFields_pairwise (collectFields cfg t))
    rw [hflds]
    exact (List.Perm.nodup_iff ((sortFields_perm
      (fun l r => indexLess l.index r.index) out).map Field.name)).mpr hnodup

/-- Claim C2, amended: under EVERY configuration, omission is keyed on
the tag options that `structEncoder.encode` re-checks —
`f.options.Contains("omitZero")` / `("omitNil")` — and not on the
resolved `omitIfZero`/`omitIfNil` descriptor flags `typeFields` computed
from the configuration (for a descriptor `f` whose navigation reaches a
value `fv`): with the omitZero option present and `fv` the zero value,
the key is entirely absent from the mapping; with the omitNil option
present and `fv` nil, likewise; with neither option present the key is
present, bound to the field's encoded value — and the encoder is the
identity on non-record, non-override values, so zero values appear as
the zero value and a nil pointer appears as the explicit nil (null)
value. -/
theorem claim_C2 {cfg : Config} {nm : String} {fs : List GoField}
    {flds : List Field} {f : Field} {v : GoValue} {m : MapOut}
    (ht : typeFields cfg (.tstruct nm fs) = .ok flds)
    (hf : f ∈ flds)
    (hm : marshal cfg (.tstruct nm fs) v = .ok m) :
    (∀ fv, fieldByIndex v f.index = some fv →
      (optsContains f.options "omitZero" = true → isValueZero fv = true →
        mapGet m f.name = none) ∧
      (optsContains f.options "omitNil" = true → isValueNil fv = true →
        mapGet m f.name = none) ∧
      (optsContains f.options "omitZero" = false →
        optsContains f.options "omitNil" = false →
        ∃ ev, fieldEnc
            (encodeValue cfg (GoType.tstruct nm fs).size)
            (.tstruct nm fs) f fv = .ok ev ∧
          mapGet m f.name = some ev)) ∧
    (∀ (cfg' : Config) (u : GoType) (fv : GoValue) (k : Nat),
      implementsMarshaler u = false → structKindB u = false → 0 < k →
      encodeValue cfg' k u fv = .ok fv) := by
  have hlist := marshal_ok_fields ht hm
  have hmain := encodeFieldsList_lookup (typeFields_names_nodup ht) hf hlist
  constructor
  · intro fv hfi
    have hcase := hmain.2 fv hfi
    refine ⟨?_, ?_, ?_⟩
    · intro hoz hzero
      have hskip : omitSkip f fv = true := by
        simp [omitSkip, hoz, hzero]
      rw [hcase.1 hskip]
      rfl
    · intro hon hnil
      have hskip : omitSkip f fv = true := by
        simp [omitSkip, hon, hnil]
      rw [hcase.1 hskip]
      rfl
    · intro hoz hon
      have hskip : omitSkip f fv = false := by
        simp [omitSkip, hoz, hon]
      rcases hcase.2 hskip with ⟨ev, hev, hget⟩
      exact ⟨ev, hev, hget⟩
  · intro cfg' u fv k h1 h2 hk
    exact encodeValue_passthrough h1 h2 hk

/-- Claim C2, counterexample to the resolved-flag reading: under
`Config{OmitZero: true}` the lone untagged int field's RESOLVED
descriptor flag `omitIfZero` is true (`typeFields` resolves it from the
ambient configuration), yet marshalling the zero value still emits the
key with the zero value — `structEncoder.encode` re-checks only the tag
options, which are empty here, so the resolved flag never takes
effect. -/
theorem claim_C2_counterexample :
    typeFields { omitZero := true, omitNil := false }
        (.tstruct "S" [.mk "A" "" false true .tint])
      = .ok [{ name := "A", tagged := false, index := [0], typ := .tint,
               options := [], omitZero := true, omitNil := false,
               asValue := false }] ∧
    marshal { omitZero := true, omitNil := false }
        (.tstruct "S" [.mk "A" "" false true .tint])
        (.vstruct [.vint 0])
      = .ok [("A", GoValue.vint 0)] ∧
    isValueZero (.vint 0) = true :=
  ⟨rfl, rfl, rfl⟩

/-- Witness for claim C2 on a concrete record with an `omitZero` int field
`A` holding `0` (absent), an `omitNil` pointer field `C` holding nil
(absent), and an unflagged int field `B` holding `0` (present as `0`). -/
theorem claim_C2_witness :
    (mapGet [("B", GoValue.vint 0)] "A" = none ∧
     mapGet [("B", GoValue.vint 0)] "C" = none ∧
     ∃ ev, fieldEnc
        (encodeValue defaultConfig (GoType.tstruct "OZ"
          [.mk "A" ",omitZero" false true .tint,
           .mk "B" "" false true .tint,
           .mk "C" ",omitNil" false true (.tptr .tint)]).size)
        (.tstruct "OZ" [.mk "A" ",omitZero" false true .tint,
           .mk "B" "" false true .tint,
           .mk "C" ",omitNil" false true (.tptr .tint)])
        { name := "B", tagged := false, index := [1], typ := .tint,
          options := [], omitZero := false, omitNil := false,
          asValue := false }
        (.vint 0) = .ok ev ∧
       mapGet [("B", GoValue.vint 0)] "B" = some ev) := by
  have hA := (claim_C2
    (show typeFields defaultConfig (.tstruct "OZ"
        [.mk "A" ",omitZero" false true .tint,
         .mk "B" "" false true .tint,
         .mk "C" ",omitNil" false true (.tptr .tint)])
      = .ok [{ name := "A", tagged := true, index := [0], typ := .tint,
               options := [("omitzero", "")], omitZero := true,
               omitNil := false, asValue := false },
             { name := "B", tagged := false, index := [1], typ := .tint,
               options := [], omitZero := false, omitNil := false,
               asValue := false },
             { name := "C", tagged := true, index := [2], typ := .tint,
               options := [("omitnil", "")], omitZero := false,
               omitNil := true, asValue := false }] from rfl)
    (List.mem_cons_self _ _)
    (show marshal defaultConfig (.tstruct "OZ"
        [.mk "A" ",omitZero" false true .tint,
         .mk "B" "" false true .tint,
         .mk "C" ",omitNil" false true (.tptr .tint)])
      (.vstruct [.vint 0, .vint 0, .vptr none])
      = .ok [("B", GoValue.vint 0)] from rfl)).1 (.vint 0) rfl
  have hC := (claim_C2
    (show typeFields defaultConfig (.tstruct "OZ"
        [.mk "A" ",omitZero" false true .tint,
         .mk "B" "" false true .tint,
         .mk "C" ",omitNil" false true (.tptr .tint)])
      = .ok [{ name := "A", tagged := true, index := [0], typ := .tint,
               options := [("omitzero", "")], omitZero := true,
               omitNil := false, asValue := false },
             { name := "B", tagged := false, index := [1], typ := .tint,
               options := [], omitZero := false, omitNil := false,
               asValue := false },
             { name := "C", tagged := true, index := [2], typ := .tint,
               options := [("omitnil", "")], omitZero := false,
               omitNil := true, asValue := false }] from rfl)
    (List.mem_cons_of_mem _ (List.mem_cons_of_mem _
      (List.mem_cons_self _ _)))
    (show marshal defaultConfig (.tstruct "OZ"
        [.mk "A" ",omitZero" false true .tint,
         .mk "B" "" false true .tint,
         .mk "C" ",omitNil" false true (.tptr .tint)])
      (.vstruct [.vint 0, .vint 0, .vptr none])
      = .ok [("B", GoValue.vint 0)] from rfl)).1 (.vptr none) rfl
  have hB := (claim_C2
    (show typeFields defaultConfig (.tstruct "OZ"
        [.mk "A" ",omitZero" false true .tint,
         .mk "B" "" false true .tint,
         .mk "C" ",omitNil" false true (.tptr .tint)])
      = .ok [{ name := "A", tagged := true, index := [0], typ := .tint,
               options := [("omitzero", "")], omitZero := true,
               omitNil := false, asValue := false },
             { name := "B", tagged := false, index := [1], typ := .tint,
               options := [], omitZero := false, omitNil := false,
               asValue := false },
             { name := "C", tagged := true, index := [2], typ := .tint,
               options := [("omitnil", "")], omitZero := false,
               omitNil := true, asValue := false }] from rfl)
    (List.mem_cons_of_mem _ (List.mem_cons_self _ _))
    (show marshal defaultConfig (.tstruct "OZ"
        [.mk "A" ",omitZero" false true .tint,
         .mk "B" "" false true .tint,
         .mk "C" ",omitNil" false true (.tptr .tint)])
      (.vstruct [.vint 0, .vint 0, .vptr none])
      = .ok [("B", GoValue.vint 0)] from rfl)).1 (.vint 0) rfl
  exact ⟨hA.1 rfl rfl, hC.2.1 rfl rfl, hB.2.2 rfl rfl⟩

/-- Claim C3, counterexample: a field of a `Marshaler`-implementing struct
type tagged with the `value` option stores the raw field value verbatim —
not the representation (`42`) its `MarshalMapValue` would return — so "for
every field whose value's type implements MarshalMapValue the stored value
is exactly the method's representation" fails as stated. -/
theorem claim_C3_counterexample :
    implementsMarshaler
      (.tmarshalerStruct "MS" [.mk "A" "" false true .tint]) = true ∧
    Marshal (.tstruct "P" [.mk "M" ",value" false true
        (.tmarshalerStruct "MS" [.mk "A" "" false true .tint])])
        (.vstruct [.vmarshaler none (.vint 42) [.vint 7]])
      = .ok [("M", .vmarshaler none (.vint 42) [.vint 7])] ∧
    GoValue.vmarshaler none (.vint 42) [.vint 7] ≠ GoValue.vint 42 :=
  ⟨rfl, rfl, fun h => GoValue.noConfusion h⟩

/-- Claim C3, amended: under every configuration, for a resolved field
descriptor without the `value` (as-opaque-value) option, whose type
implements the self-describing-encode capability, and which is actually
emitted (navigation succeeds and the omission test does not fire), the
value stored under the field's key is exactly the representation
`MarshalMapValue` returned — whatever the underlying struct's own field
values `vals` are, they are never walked or flattened in. -/
theorem claim_C3 {cfg : Config} {nm : String} {fs : List GoField}
    {flds : List Field}
    {f : Field} {v : GoValue} {m : MapOut} {u : GoType} {mval : GoValue}
    {vals : List GoValue}
    (ht : typeFields cfg (.tstruct nm fs) = .ok flds)
    (hf : f ∈ flds)
    (hm : marshal cfg (.tstruct nm fs) v = .ok m)
    (hty : typeByIndex (.tstruct nm fs) f.index = some u)
    (himp : implementsMarshaler u = true)
    (hval : optsContains f.options "value" = false)
    (hfi : fieldByIndex v f.index = some (.vmarshaler none mval vals))
    (hskip : omitSkip f (.vmarshaler none mval vals) = false) :
    mapGet m f.name = some mval := by
  have hlist := marshal_ok_fields ht hm
  rcases ((encodeFieldsList_lookup (typeFields_names_nodup ht) hf
      hlist).2 _ hfi).2 hskip
    with ⟨ev, hev, hget⟩
  have henc : fieldEnc
      (encodeValue cfg (GoType.tstruct nm fs).size)
      (.tstruct nm fs) f (.vmarshaler none mval vals) = .ok mval := by
    simp only [fieldEnc, hty]
    rw [if_neg (by simp [hval])]
    rw [encodeValue_marshaler himp (size_pos _)]
    rfl
  rw [henc] at hev
  cases hev
  exact hget

/-- Witness for claim C3 on a concrete record with one field of a
`Marshaler` struct type whose method returns `42` while its own field
values hold `7`: the mapping binds the field's key to exactly `42`. -/
theorem claim_C3_witness :
    mapGet [("M", GoValue.vint 42)] "M" = some (GoValue.vint 42) :=
  claim_C3
    (show typeFields defaultConfig (.tstruct "P2" [.mk "M" "" false true
        (.tmarshalerStruct "MS" [.mk "A" "" false true .tint])])
      = .ok [{ name := "M", tagged := false, index := [0],
               typ := .tmarshalerStruct "MS" [.mk "A" "" false true .tint],
               options := [], omitZero := false, omitNil := false,
               asValue := false }] from rfl)
    (List.mem_cons_self _ _)
    (show marshal defaultConfig (.tstruct "P2" [.mk "M" "" false true
        (.tmarshalerStruct "MS" [.mk "A" "" false true .tint])])
      (.vstruct [.vmarshaler none (.vint 42) [.vint 7]])
      = .ok [("M", GoValue.vint 42)] from rfl)
    rfl rfl rfl rfl rfl

end EncMap
